import Mathlib

/-!
Verification of the OSINT threat-intel pipeline core
(`pipeline/src/{merge_dedupe,scoring,correlation,normalization}.py`),
shallowly embedded in Lean 4.

Conventions of the embedding:
* pandas DataFrames become `List` of structures; a column that may hold NaN
  becomes `Option`; floats become `ℚ` (all arithmetic used here is exact).
* Python dicts with `.get(k, d)` become total Lean functions with a default.
* `groupby` becomes: the list of distinct keys (first-occurrence order;
  pandas sorts the keys, but no verified property depends on key order)
  paired with `List.filter` for the members of each group.
-/

namespace OSINT

/-- First-occurrence deduplication, the order used by `pandas.Series.unique()`:
keep each element's first occurrence, in input order. -/
def pdUnique {α : Type} [DecidableEq α] : List α → List α
  | [] => []
  | a :: l => a :: (pdUnique l).filter (fun b => b ≠ a)

/-- `max` of a pandas Series (`.max()`), given a default for the empty case;
every use below is on a nonempty list. -/
def seriesMax {α : Type} [LinearOrder α] (dflt : α) : List α → α
  | [] => dflt
  | x :: xs => xs.foldl max x

/-- `min` of a pandas Series (`.min()`), given a default for the empty case. -/
def seriesMin {α : Type} [LinearOrder α] (dflt : α) : List α → α
  | [] => dflt
  | x :: xs => xs.foldl min x

/-! ## Merge/Dedupe Engine (`pipeline/src/merge_dedupe.py`) -/

/-- A normalized (and enriched) input record: the columns of the common schema
that `MergeDedupeEngine._merge_group` reads.  Columns not referenced by any
verified property (`tags`, `description`, coordinates, the list-valued
columns, `raw_data`) are omitted from the embedding.  `asn`/`country`/
`organization` may be NaN in the frame, hence `Option`. -/
structure NormRecord where
  indicator : String
  type : String
  source : String
  first_seen : String
  last_seen : String
  confidence : ℚ
  severity : String
  asn : Option String
  country : Option String
  organization : Option String
deriving DecidableEq

/-- The output row of `_merge_group` (fields relevant to the verified
properties). -/
structure MergedRecord where
  indicator : String
  type : String
  sources : List String
  source_count : Nat
  first_seen : String
  last_seen : String
  confidence : ℚ
  severity : String
  asn : Option String
  country : Option String
  organization : Option String
deriving DecidableEq

/-- `severity_order = {'low': 0, 'medium': 1, 'high': 2, 'critical': 3}`. -/
def severity_order (s : String) : Option Nat :=
  if s = "low" then some 0
  else if s = "medium" then some 1
  else if s = "high" then some 2
  else if s = "critical" then some 3
  else none

/-- `severity_order.get(x, 0)`. -/
def sevRank (s : String) : Nat := (severity_order s).getD 0

/-- `reverse_severity = {v: k for k, v in severity_order.items()}`, read with
`.get(max_severity, 'medium')`. -/
def reverse_severity (n : Nat) : String :=
  if n = 0 then "low"
  else if n = 1 then "medium"
  else if n = 2 then "high"
  else if n = 3 then "critical"
  else "medium"

/-- `_calculate_merged_severity`: rank every severity with
`severity_order.get(x, 0)`, take the max, map back.  (`foldl max 0` agrees
with the pandas `.max()` on the nonempty groups produced by `groupby`.) -/
def _calculate_merged_severity (group : List NormRecord) : String :=
  reverse_severity ((group.map (fun r => sevRank r.severity)).foldl max 0)

/-- The two-candidate selection underlying `Series.mode().iloc[0]`: prefer the
higher count in `l`, breaking count ties by the smaller string (pandas sorts
the modes ascending, so `.iloc[0]` is the least modal value).  Python compares
strings by code points, which is the lexicographic order on `String.data`. -/
def modeBetter (l : List String) (a b : String) : String :=
  if l.count b > l.count a ∨ (l.count b = l.count a ∧ b.data < a.data) then b else a

/-- `values.mode().iloc[0]` for a nonempty `values`: the least value among
those of maximal multiplicity. -/
def pandasMode : List String → Option String
  | [] => none
  | x :: xs => some (xs.foldl (modeBetter (x :: xs)) x)

/-- `_get_most_common`: `dropna()` the column, return `None` when nothing is
left, else `mode().iloc[0]`.  (`mode()` of a nonempty NaN-free series is
nonempty, so the `values.iloc[0]` fallback in the source is unreachable.) -/
def _get_most_common (column : List (Option String)) : Option String :=
  pandasMode (column.filterMap id)

/-- `_merge_group(group, indicator, ind_type)`. -/
def _merge_group (group : List NormRecord) (indicator : String)
    (ind_type : String) : MergedRecord :=
  { indicator := indicator
    type := ind_type
    sources := pdUnique (group.map (·.source))
    source_count := (pdUnique (group.map (·.source))).length
    first_seen := seriesMin "" (group.map (·.first_seen))
    last_seen := seriesMax "" (group.map (·.last_seen))
    confidence := seriesMax 0 (group.map (·.confidence))
    severity := _calculate_merged_severity group
    asn := _get_most_common (group.map (·.asn))
    country := _get_most_common (group.map (·.country))
    organization := _get_most_common (group.map (·.organization)) }

/-- The `groupby(['indicator', 'type'])` key of a record. -/
def groupKey (r : NormRecord) : String × String := (r.indicator, r.type)

/-- The members of one `groupby` group, in input order (pandas `groupby`
preserves intra-group order). -/
def groupOf (l : List NormRecord) (k : String × String) : List NormRecord :=
  l.filter (fun r => groupKey r = k)

/-- `MergeDedupeEngine.process`: one `_merge_group` output per distinct
(indicator, type) key of the input.  (The structure-typed `_merge_group`
is total, so the per-group `try/except` skip never fires.) -/
def process (l : List NormRecord) : List MergedRecord :=
  (pdUnique (l.map groupKey)).map (fun k => _merge_group (groupOf l k) k.1 k.2)

/-- The categorical resolution rule as the spec words it ("most frequent
non-empty value in the group, ties broken by first-encountered"), stated as a
function for comparison with `_get_most_common`: drop nulls and empty strings,
then scan the distinct values in first-occurrence order keeping the current
value unless a strictly more frequent one appears. -/
def specMostCommon (column : List (Option String)) : Option String :=
  let values := (column.filterMap id).filter (fun s => s ≠ "")
  match pdUnique values with
  | [] => none
  | x :: xs =>
      some (xs.foldl (fun a b => if values.count b > values.count a then b else a) x)

/-- What `_get_most_common` actually guarantees (the amended C6 rule): on an
all-null column the result is `none`; otherwise it is a most frequent
non-null value — empty strings included — least in code-point order among the
equally frequent ones. -/
def AttrSpec (column : List (Option String)) (result : Option String) : Prop :=
  if column.filterMap id = [] then result = none
  else ∃ v, result = some v ∧ v ∈ column.filterMap id
    ∧ (∀ w ∈ column.filterMap id,
        (column.filterMap id).count w ≤ (column.filterMap id).count v)
    ∧ (∀ w ∈ column.filterMap id,
        (column.filterMap id).count w = (column.filterMap id).count v →
          v.data ≤ w.data)

/-- Reinterpret a merge output row as a single-source input row, realizing the
spec's "Merge output fed back as single-source input" (§8): identity,
timestamps, confidence, severity and attributes carry over unchanged; the
collapsed `sources` list is represented by its first element. -/
def mergedToInput (m : MergedRecord) : NormRecord :=
  { indicator := m.indicator
    type := m.type
    source := m.sources.headD ""
    first_seen := m.first_seen
    last_seen := m.last_seen
    confidence := m.confidence
    severity := m.severity
    asn := m.asn
    country := m.country
    organization := m.organization }

/-! Concrete records used by the witnesses and counterexamples. -/

def c2rA : NormRecord := ⟨"9.9.9.9", "ip", "virustotal", "t0", "t1", 0, "low", none, none, none⟩
def c2rB : NormRecord := ⟨"9.9.9.9", "ip", "shodan", "t0", "t1", 1, "high", none, none, none⟩

def c3r : NormRecord := ⟨"7.7.7.7", "ip", "greynoise", "t0", "t1", 1, "critical", none, none, none⟩
def c3m : MergedRecord := _merge_group (groupOf [c3r] ("7.7.7.7", "ip")) "7.7.7.7" "ip"

def c4r : NormRecord := ⟨"6.6.6.6", "ip", "abuseipdb", "t0", "t1", 1, "medium", none, none, none⟩
def c4m : MergedRecord := _merge_group (groupOf [c4r] ("6.6.6.6", "ip")) "6.6.6.6" "ip"

def c6rA : NormRecord := ⟨"5.5.5.5", "ip", "s1", "t", "t", 1, "low", some "B", some "", none⟩
def c6rB : NormRecord := ⟨"5.5.5.5", "ip", "s2", "t", "t", 1, "low", some "A", some "", none⟩
def c6rC : NormRecord := ⟨"5.5.5.5", "ip", "s3", "t", "t", 1, "low", none, some "X", none⟩

def c7rA : NormRecord := ⟨"4.4.4.4", "ip", "s1", "t", "t", 1, "low", none, none, none⟩
def c7rB : NormRecord := ⟨"4.4.4.4", "ip", "s2", "t", "t", 1, "critical", none, none, none⟩

/-! ## Threat Scorer (`pipeline/src/scoring.py`) -/

/-- The columns of the merged frame that `ThreatScorer.calculate_scores`
reads. -/
structure ScoreInput where
  sources : List String
  confidence : ℚ
  severity : String
  source_count : Nat
  tags : List String
deriving DecidableEq

/-- The `source_scores` table of `_calculate_source_reputation`, read with
`.get(source, 50)`. -/
def source_scores (s : String) : ℚ :=
  if s = "virustotal" then 90
  else if s = "greynoise" then 85
  else if s = "alienvault" then 80
  else if s = "abuseipdb" then 75
  else if s = "shodan" then 60
  else if s = "urlscan" then 70
  else 50

/-- `_calculate_source_reputation`: 0 for an empty source list, else the mean
reputation over the contributing sources, capped at 100. -/
def _calculate_source_reputation (sources : List String) : ℚ :=
  if sources = [] then 0
  else min ((sources.map source_scores).sum / sources.length) 100

/-- `_severity_to_score` with its `.get(severity, 50)` default. -/
def _severity_to_score (severity : String) : ℚ :=
  if severity = "low" then 25
  else if severity = "medium" then 50
  else if severity = "high" then 75
  else if severity = "critical" then 100
  else 50

/-- The `malicious_terms` keyword-weight table. -/
def malicious_terms (t : String) : Option ℚ :=
  if t = "malware" then some 20
  else if t = "botnet" then some 25
  else if t = "phishing" then some 20
  else if t = "c2" then some 30
  else if t = "ransomware" then some 25
  else if t = "exploit" then some 15
  else if t = "brute-force" then some 15
  else if t = "scanning" then some 10
  else none

/-- `_calculate_malicious_tags_score`: sum the weights of the recognized
tags, capped at 100. -/
def _calculate_malicious_tags_score (tags : List String) : ℚ :=
  min (tags.filterMap malicious_terms).sum 100

/-- `_calculate_recency_score`: the source returns the constant 50. -/
def _calculate_recency_score : ℚ := 50

/-- The fixed `ThreatScorer.weights` table. -/
def weights (k : String) : ℚ :=
  if k = "source_reputation" then 0.25
  else if k = "confidence" then 0.20
  else if k = "severity" then 0.15
  else if k = "source_count" then 0.15
  else if k = "malicious_tags" then 0.15
  else if k = "recent_activity" then 0.10
  else 0

/-- The unclipped weighted sum computed by `calculate_scores`. -/
def threat_score_raw (row : ScoreInput) : ℚ :=
  _calculate_source_reputation row.sources * weights "source_reputation"
  + row.confidence * 100 * weights "confidence"
  + _severity_to_score row.severity * weights "severity"
  + (row.source_count : ℚ) * 10 * weights "source_count"
  + _calculate_malicious_tags_score row.tags * weights "malicious_tags"
  + _calculate_recency_score * weights "recent_activity"

/-- `threat_score` after `.clip(0, 100)`. -/
def threat_score (row : ScoreInput) : ℚ :=
  max 0 (min (threat_score_raw row) 100)

/-- `_score_to_risk_level`. -/
def _score_to_risk_level (score : ℚ) : String :=
  if score ≥ 80 then "Critical"
  else if score ≥ 60 then "High"
  else if score ≥ 40 then "Medium"
  else if score ≥ 20 then "Low"
  else "Info"

/-- `risk_level`, assigned by `calculate_scores` from the clipped score. -/
def risk_level (row : ScoreInput) : String :=
  _score_to_risk_level (threat_score row)

/-- Concrete scorer input used by the C5 witness. -/
def c5row : ScoreInput :=
  ⟨["virustotal"], 1, "critical", 5, ["c2", "ransomware", "botnet", "malware"]⟩

/-! ## Normalizer (`pipeline/src/normalization.py`, batch loop in
`OSINTPipeline.normalize_data`, `pipeline/src/main.py`) -/

/-- `IndicatorNormalizer.normalize(raw_item, source)`: dispatch to a
per-source mapper inside `try/except Exception`; a raised exception
(`Except.error`) becomes a dropped record (`None`), and nothing else escapes.
The per-source mapper is a parameter because C9 quantifies over arbitrary
mapping failures. -/
def normalize {Raw NormOut : Type}
    (mapper : Raw → String → Except String NormOut)
    (item : Raw) (source : String) : Option NormOut :=
  match mapper item source with
  | Except.ok r => some r
  | Except.error _ => none

/-- The batch loop of `OSINTPipeline.normalize_data`: iterate the tagged raw
records, appending each successfully normalized row; dropped rows contribute
nothing. -/
def normalize_data {Raw NormOut : Type}
    (mapper : Raw → String → Except String NormOut)
    (batch : List (Raw × String)) : List NormOut :=
  batch.foldl (fun acc p =>
    match normalize mapper p.1 p.2 with
    | some n => acc ++ [n]
    | none => acc) []

/-- Concrete mapper for the C9 witness: the record "bad" raises, everything
else normalizes. -/
def c9mapper : String → String → Except String String :=
  fun item src => if item = "bad" then Except.error "boom" else Except.ok (src ++ ":" ++ item)

def c9batch : List (String × String) := [("a", "s1"), ("bad", "s2"), ("b", "s3")]

/-! ## Correlation Graph Builder (`pipeline/src/correlation.py`) -/

/-- The columns of the scored frame that the graph builder reads (node
attributes such as the threat score are stored on nodes but never read by a
verified property, so they are omitted). -/
structure ScoredRow where
  indicator : String
  type : String
  asn : String
  country : String
  organization : String
deriving DecidableEq

/-- A `networkx` edge: the endpoint node ids in insertion orientation plus
the `relationships` attribute. -/
structure Edge where
  u : String
  v : String
  relationships : List (String × String)
deriving DecidableEq

/-- The `nx.Graph`: node ids and edges, both in insertion order. -/
structure Graph where
  nodes : List String
  edges : List Edge
deriving DecidableEq

/-- `'.' in s` (Python's containment test, here for the single character
`'.'`). -/
def containsDot (s : String) : Bool := s.data.contains '.'

/-- The node id that `_create_edges` and `find_related_indicators`
reconstruct from a bare indicator value:
`f"ip_{ind}" if '.' in ind else f"domain_{ind}"`. -/
def reconId (v : String) : String :=
  if containsDot v then "ip_" ++ v else "domain_" ++ v

/-- The node id `_add_indicator_node` actually stores:
`f"{row['type']}_{row['indicator']}"`. -/
def nodeId (r : ScoredRow) : String := r.type ++ "_" ++ r.indicator

/-- `nx.Graph.add_node`: a no-op on an existing id (attribute refresh is not
modelled), otherwise append. -/
def addNode (g : Graph) (id : String) : Graph :=
  if id ∈ g.nodes then g else { g with nodes := g.nodes ++ [id] }

/-- Does edge `e` join the unordered pair {a, b}? -/
def edgeMatches (e : Edge) (a b : String) : Bool :=
  (e.u = a ∧ e.v = b) ∨ (e.u = b ∧ e.v = a)

/-- `nx.Graph.has_node`. -/
def hasNode (g : Graph) (id : String) : Bool := id ∈ g.nodes

/-- `nx.Graph.has_edge` (undirected). -/
def hasEdge (g : Graph) (a b : String) : Bool := g.edges.any (edgeMatches · a b)

/-- `self.graph[node1][node2]['relationships'].append(...)`: append one
relationship tag to the (first) edge joining {a, b}. -/
def appendRel (es : List Edge) (a b : String) (rel : String × String) : List Edge :=
  match es with
  | [] => []
  | e :: es' =>
      if edgeMatches e a b then
        { e with relationships := e.relationships ++ [rel] } :: es'
      else e :: appendRel es' a b rel

/-- One iteration of the `combinations` loop in `_create_edges`: rebuild the
two node ids (`node1`/`node2` in the source) by the dot heuristic, and only
if both exist as nodes either extend the existing edge's relationship list or
add a fresh edge. -/
def createEdgeStep (rel : String) (value : String) (g : Graph)
    (p : String × String) : Graph :=
  if hasNode g (reconId p.1) && hasNode g (reconId p.2) then
    if hasEdge g (reconId p.1) (reconId p.2) then
      { g with edges := appendRel g.edges (reconId p.1) (reconId p.2) (rel, value) }
    else
      { g with edges := g.edges ++ [⟨reconId p.1, reconId p.2, [(rel, value)]⟩] }
  else g

/-- `itertools.combinations(indicators, 2)`, in iteration order. -/
def combinations : List String → List (String × String)
  | [] => []
  | x :: xs => xs.map (fun y => (x, y)) ++ combinations xs

/-- `_create_edges(indicators, relationship, value)`. -/
def _create_edges (g : Graph) (indicators : List String) (rel : String)
    (value : String) : Graph :=
  (combinations indicators).foldl (createEdgeStep rel value) g

/-- The body of one `groupby` iteration in `_link_by_asn` /
`_link_by_country` / `_link_by_organization`: when the key is truthy
(non-empty) and the group has more than one row, link the group's indicator
values. -/
def linkStep (attr : ScoredRow → String) (rel : String) (rows : List ScoredRow)
    (g : Graph) (key : String) : Graph :=
  if key ≠ "" ∧ (rows.filter (fun r => attr r = key)).length > 1 then
    _create_edges g ((rows.filter (fun r => attr r = key)).map (·.indicator)) rel key
  else g

/-- One linking pass: iterate `linkStep` over the distinct attribute values
(pandas sorts the group keys; no verified property depends on key order, so
first-occurrence order is used). -/
def _link_by (attr : ScoredRow → String) (rel : String) (rows : List ScoredRow)
    (g : Graph) : Graph :=
  (pdUnique (rows.map attr)).foldl (linkStep attr rel rows) g

/-- `CorrelationEngine.build_graph`: clear the graph, add one node per row,
then run the linking passes (`_link_by_services` and `_link_ips_and_domains`
are `pass` in the source; metrics computation and serialization do not
modify the graph). -/
def build_graph (rows : List ScoredRow) : Graph :=
  _link_by (·.organization) "same_org" rows
    (_link_by (·.country) "same_country" rows
      (_link_by (·.asn) "same_asn" rows
        (rows.foldl (fun g r => addNode g (nodeId r)) ⟨[], []⟩)))

/-- All edges joining the unordered pair {a, b}. -/
def edgesBetween (g : Graph) (a b : String) : List Edge :=
  g.edges.filter (fun e => edgeMatches e a b)

/-- The concatenated relationship tags carried between {a, b}. -/
def pairRels (g : Graph) (a b : String) : List (String × String) :=
  ((edgesBetween g a b).map (·.relationships)).flatten

/-- The neighbors of `u`, in edge-insertion order (the `networkx` adjacency
order). -/
def neighbors (g : Graph) (u : String) : List String :=
  g.edges.filterMap (fun e =>
    if e.u = u then some e.v else if e.v = u then some e.u else none)

/-- The recursion of `find_related_indicators.dfs`, with fuel
`max_depth + 1 - depth` (the source stops when `depth > max_depth`); the
state is the `visited` set together with the `related` list. -/
def dfsAux (g : Graph) : Nat → String → List String × List String →
    List String × List String
  | 0, _, st => st
  | fuel + 1, current, st =>
      if current ∈ st.1 then st
      else
        (neighbors g current).foldl (fun st nb => dfsAux g fuel nb st)
          (current :: st.1, st.2 ++ [current])

/-- `find_related_indicators(indicator, max_depth)`. -/
def find_related_indicators (g : Graph) (indicator : String)
    (max_depth : Nat) : List String :=
  if reconId indicator ∈ g.nodes then
    (dfsAux g (max_depth + 1) (reconId indicator) ([], [])).2.filter
      (fun n => n ≠ reconId indicator)
  else []

/-- Reachability by a path of at most `n` edges — the specification side of
C8. -/
def reachesWithin (g : Graph) : Nat → String → String → Bool
  | 0, u, v => u = v
  | n + 1, u, v => u = v || (neighbors g u).any (fun w => reachesWithin g n w v)

/-- {a, b} and {c, d} are the same unordered pair. -/
def pairEq (a b c d : String) : Prop := (a = c ∧ b = d) ∨ (a = d ∧ b = c)

/-- Does the combination `p` reconstruct exactly the node pair {u, v}? -/
def pairHits (p : String × String) (u v : String) : Prop :=
  pairEq (reconId p.1) (reconId p.2) u v

instance (a b c d : String) : Decidable (pairEq a b c d) :=
  inferInstanceAs (Decidable ((a = c ∧ b = d) ∨ (a = d ∧ b = c)))

instance (p : String × String) (u v : String) : Decidable (pairHits p u v) :=
  inferInstanceAs (Decidable (pairEq (reconId p.1) (reconId p.2) u v))

/-- Proof bookkeeping: the relationship tags one `linkStep` iteration adds
between the node pair {u, v}. -/
def linkContrib (attr : ScoredRow → String) (rel : String) (rows : List ScoredRow)
    (u v : String) (key : String) : List (String × String) :=
  if key ≠ "" ∧ (rows.filter (fun r => attr r = key)).length > 1 then
    List.replicate
      ((combinations ((rows.filter (fun r => attr r = key)).map (·.indicator))).countP
        (fun p => decide (pairHits p u v))) (rel, key)
  else []

/-- The shape of every reconstructed endpoint id: `ip_` plus a dotted value,
or `domain_` plus a dot-free value. -/
def EndpointForm (s : String) : Prop :=
  (∃ v, containsDot v = true ∧ s = "ip_" ++ v)
  ∨ (∃ v, containsDot v = false ∧ s = "domain_" ++ v)

/-- Every edge endpoint in the graph has the reconstructed shape. -/
def EdgesWF (g : Graph) : Prop :=
  ∀ e ∈ g.edges, EndpointForm e.u ∧ EndpointForm e.v

/-! Concrete rows for the graph claims. -/

def c1rA : ScoredRow := ⟨"a.com", "domain", "AS1", "", ""⟩
def c1rB : ScoredRow := ⟨"b.com", "domain", "AS1", "", ""⟩

def c1wA : ScoredRow := ⟨"1.2.3.4", "ip", "AS7", "NL", ""⟩
def c1wB : ScoredRow := ⟨"5.6.7.8", "ip", "AS7", "NL", ""⟩

def c8rows : List ScoredRow :=
  [⟨"1.1.1.1", "ip", "X", "", ""⟩, ⟨"4.4.4.4", "ip", "X", "", ""⟩,
   ⟨"2.2.2.2", "ip", "X", "Y", ""⟩, ⟨"3.3.3.3", "ip", "", "Y", ""⟩]

def c10rows : List ScoredRow :=
  [⟨"1.2.3.4", "ip", "AS9", "", ""⟩, ⟨"5.6.7.8", "ip", "AS9", "", ""⟩,
   ⟨"http://x.com/a", "url", "AS9", "", ""⟩]

def c10r : ScoredRow := ⟨"http://x.com/a", "url", "AS9", "", ""⟩

def c10e : Edge := ⟨"ip_1.2.3.4", "ip_5.6.7.8", [("same_asn", "AS9")]⟩

/-- "`a` is at least as good a mode candidate for `l` as `b`": strictly more
occurrences, or equally many and not later in the sort order. -/
def modePref (l : List String) (a b : String) : Prop :=
  l.count b < l.count a ∨ (l.count b = l.count a ∧ a.data ≤ b.data)

/-! ### List helper lemmas -/

theorem mem_pdUnique {α : Type} [DecidableEq α] (l : List α) (a : α) :
    a ∈ pdUnique l ↔ a ∈ l := by
  induction l with
  | nil => simp [pdUnique]
  | cons x xs ih =>
    simp only [pdUnique, List.mem_cons, List.mem_filter, decide_eq_true_iff, ih]
    constructor
    · rintro (rfl | ⟨h, _⟩)
      · exact Or.inl rfl
      · exact Or.inr h
    · rintro (rfl | h)
      · exact Or.inl rfl
      · by_cases hax : a = x
        · exact Or.inl hax
        · exact Or.inr ⟨h, hax⟩

theorem pdUnique_nodup {α : Type} [DecidableEq α] (l : List α) :
    (pdUnique l).Nodup := by
  induction l with
  | nil => simp [pdUnique]
  | cons x xs ih =>
    refine List.Nodup.cons ?_ (ih.filter _)
    intro hx
    rcases List.mem_filter.1 hx with ⟨_, hne⟩
    simp at hne

theorem pdUnique_eq_of_nodup {α : Type} [DecidableEq α] (l : List α)
    (h : l.Nodup) : pdUnique l = l := by
  induction l with
  | nil => rfl
  | cons x xs ih =>
    rcases List.nodup_cons.1 h with ⟨hx, hxs⟩
    rw [pdUnique, ih hxs, List.filter_eq_self.2]
    intro b hb
    simp only [decide_eq_true_iff]
    intro hbx
    exact hx (hbx ▸ hb)

theorem pdUnique_ne_nil {α : Type} [DecidableEq α] {l : List α} (h : l ≠ []) :
    pdUnique l ≠ [] := by
  cases l with
  | nil => exact absurd rfl h
  | cons x xs => simp [pdUnique]

theorem le_foldl_max {α : Type} [LinearOrder α] (l : List α) (b : α) :
    b ≤ l.foldl max b := by
  induction l generalizing b with
  | nil => exact le_refl b
  | cons x xs ih => exact le_trans (le_max_left b x) (ih (max b x))

theorem mem_le_foldl_max {α : Type} [LinearOrder α] (l : List α) (b a : α)
    (h : a ∈ l) : a ≤ l.foldl max b := by
  induction l generalizing b with
  | nil => cases h
  | cons x xs ih =>
    rcases List.mem_cons.1 h with rfl | h
    · exact le_trans (le_max_right b a) (le_foldl_max xs (max b a))
    · exact ih (max b x) h

theorem foldl_max_mem {α : Type} [LinearOrder α] (l : List α) (b : α) :
    l.foldl max b = b ∨ l.foldl max b ∈ l := by
  induction l generalizing b with
  | nil => exact Or.inl rfl
  | cons x xs ih =>
    rcases ih (max b x) with h | h
    · rcases max_choice b x with hbx | hbx
      · exact Or.inl (by rw [List.foldl, h, hbx])
      · exact Or.inr (by rw [List.foldl, h, hbx]; exact List.mem_cons_self x xs)
    · exact Or.inr (List.mem_cons_of_mem x h)

theorem seriesMax_mem {α : Type} [LinearOrder α] (dflt : α) (l : List α)
    (h : l ≠ []) : seriesMax dflt l ∈ l := by
  cases l with
  | nil => exact absurd rfl h
  | cons x xs =>
    rcases foldl_max_mem xs x with hx | hx
    · rw [seriesMax, hx]; exact List.mem_cons_self x xs
    · exact List.mem_cons_of_mem x hx

theorem le_seriesMax {α : Type} [LinearOrder α] (dflt : α) (l : List α) (a : α)
    (h : a ∈ l) : a ≤ seriesMax dflt l := by
  cases l with
  | nil => cases h
  | cons x xs =>
    rcases List.mem_cons.1 h with rfl | h
    · exact le_foldl_max xs a
    · exact mem_le_foldl_max xs x a h

/-! ### Lemmas about the mode selection -/

theorem modePref_refl (l : List String) (a : String) : modePref l a a :=
  Or.inr ⟨rfl, le_refl _⟩

theorem modePref_trans (l : List String) {a b c : String}
    (hab : modePref l a b) (hbc : modePref l b c) : modePref l a c := by
  rcases hab with h1 | ⟨h1, h1'⟩ <;> rcases hbc with h2 | ⟨h2, h2'⟩
  · exact Or.inl (lt_trans h2 h1)
  · exact Or.inl (h2 ▸ h1)
  · exact Or.inl (h1 ▸ h2)
  · exact Or.inr ⟨h2.trans h1, le_trans h1' h2'⟩

theorem modeBetter_cases (l : List String) (a b : String) :
    (modeBetter l a b = a ∧ modePref l a b) ∨
    (modeBetter l a b = b ∧ modePref l b a) := by
  unfold modeBetter
  split
  · rename_i h
    refine Or.inr ⟨rfl, ?_⟩
    rcases h with h | ⟨h, h'⟩
    · exact Or.inl h
    · exact Or.inr ⟨h.symm, le_of_lt h'⟩
  · rename_i h
    push_neg at h
    refine Or.inl ⟨rfl, ?_⟩
    rcases lt_or_eq_of_le h.1 with hlt | heq
    · exact Or.inl hlt
    · exact Or.inr ⟨heq, h.2 heq⟩

theorem foldl_modeBetter_spec (L : List String) (xs : List String) (acc : String) :
    (xs.foldl (modeBetter L) acc = acc ∨ xs.foldl (modeBetter L) acc ∈ xs)
    ∧ modePref L (xs.foldl (modeBetter L) acc) acc
    ∧ ∀ w ∈ xs, modePref L (xs.foldl (modeBetter L) acc) w := by
  induction xs generalizing acc with
  | nil => exact ⟨Or.inl rfl, modePref_refl L acc, by simp⟩
  | cons x xs ih =>
    rw [List.foldl_cons]
    rcases modeBetter_cases L acc x with ⟨he, hp⟩ | ⟨he, hp⟩ <;> rw [he]
    · have step := ih acc
      refine ⟨?_, step.2.1, ?_⟩
      · rcases step.1 with h | h
        · exact Or.inl h
        · exact Or.inr (List.mem_cons_of_mem x h)
      · intro w hw
        rcases List.mem_cons.1 hw with rfl | hw
        · exact modePref_trans L step.2.1 hp
        · exact step.2.2 w hw
    · have step := ih x
      refine ⟨?_, modePref_trans L step.2.1 hp, ?_⟩
      · rcases step.1 with h | h
        · exact Or.inr (by rw [h]; exact List.mem_cons_self x xs)
        · exact Or.inr (List.mem_cons_of_mem x h)
      · intro w hw
        rcases List.mem_cons.1 hw with rfl | hw
        · exact step.2.1
        · exact step.2.2 w hw

theorem pandasMode_spec (l : List String) (h : l ≠ []) :
    ∃ v, pandasMode l = some v ∧ v ∈ l ∧ ∀ w ∈ l, modePref l v w := by
  cases l with
  | nil => exact absurd rfl h
  | cons x xs =>
    have spec := foldl_modeBetter_spec (x :: xs) xs x
    refine ⟨xs.foldl (modeBetter (x :: xs)) x, rfl, ?_, ?_⟩
    · rcases spec.1 with h | h
      · rw [h]; exact List.mem_cons_self x xs
      · exact List.mem_cons_of_mem x h
    · intro w hw
      rcases List.mem_cons.1 hw with rfl | hw
      · exact spec.2.1
      · exact spec.2.2 w hw

/-! ### Lemmas about severity ranks -/

theorem sevRank_le_three (s : String) : sevRank s ≤ 3 := by
  unfold sevRank severity_order
  repeat' split
  all_goals decide

theorem foldl_nat_max_zero_mem (l : List Nat) (h : l ≠ []) :
    l.foldl max 0 ∈ l := by
  cases l with
  | nil => exact absurd rfl h
  | cons x xs =>
    have : (x :: xs).foldl max 0 = xs.foldl max x := by
      simp [List.foldl]
    rw [this]
    rcases foldl_max_mem xs x with h | h
    · rw [h]; exact List.mem_cons_self x xs
    · exact List.mem_cons_of_mem x h

theorem sevRank_valid_roundtrip (s : String)
    (h : s = "low" ∨ s = "medium" ∨ s = "high" ∨ s = "critical") :
    reverse_severity (sevRank s) = s := by
  rcases h with rfl | rfl | rfl | rfl <;> rfl

theorem reverse_sevRank_reverse (n : Nat) :
    reverse_severity (sevRank (reverse_severity n)) = reverse_severity n := by
  rcases n with _ | _ | _ | _ | n
  · rfl
  · rfl
  · rfl
  · rfl
  · have h0 : ¬ (n + 4 = 0) := by omega
    have h1 : ¬ (n + 4 = 1) := by omega
    have h2 : ¬ (n + 4 = 2) := by omega
    have h3 : ¬ (n + 4 = 3) := by omega
    simp only [reverse_severity, if_neg h0, if_neg h1, if_neg h2, if_neg h3]
    rfl

/-! ### Lemmas about `process` -/

theorem merge_group_indicator (g : List NormRecord) (i t : String) :
    (_merge_group g i t).indicator = i := rfl

theorem merge_group_type (g : List NormRecord) (i t : String) :
    (_merge_group g i t).type = t := rfl

theorem process_keys (l : List NormRecord) :
    (process l).map (fun m => (m.indicator, m.type)) = pdUnique (l.map groupKey) := by
  unfold process
  rw [List.map_map]
  have : ((fun m : MergedRecord => (m.indicator, m.type)) ∘
      fun k : String × String => _merge_group (groupOf l k) k.1 k.2) =
      @id (String × String) := by
    funext k
    simp [Function.comp, merge_group_indicator, merge_group_type]
  rw [this, List.map_id]

/-- In a list whose keys are pairwise distinct, filtering for the key of a
member yields exactly that member. -/
theorem filter_key_singleton {α β : Type} [DecidableEq β]
    (key : α → β) (xs : List α) (hnd : (xs.map key).Nodup) (x : α) (hx : x ∈ xs) :
    xs.filter (fun a => key a = key x) = [x] := by
  induction xs with
  | nil => cases hx
  | cons y ys ih =>
    rw [List.map_cons, List.nodup_cons] at hnd
    rcases List.mem_cons.1 hx with rfl | hx
    · have : ys.filter (fun a => key a = key x) = [] := by
        rw [List.filter_eq_nil_iff]
        intro a ha
        simp only [decide_eq_true_iff]
        intro hkey
        exact hnd.1 (hkey ▸ List.mem_map_of_mem key ha)
      simp [List.filter, this]
    · have hne : ¬ (key y = key x) := by
        intro hkey
        exact hnd.1 (hkey ▸ List.mem_map_of_mem key hx)
      have : (y :: ys).filter (fun a => key a = key x) =
          ys.filter (fun a => key a = key x) := by
        simp [List.filter, hne]
      rw [this, ih hnd.2 hx]

theorem merge_group_confidence (g : List NormRecord) (i t : String) :
    (_merge_group g i t).confidence = seriesMax 0 (g.map (·.confidence)) := rfl

theorem merge_group_severity (g : List NormRecord) (i t : String) :
    (_merge_group g i t).severity = _calculate_merged_severity g := rfl

theorem merge_group_source_count (g : List NormRecord) (i t : String) :
    (_merge_group g i t).source_count = (pdUnique (g.map (·.source))).length := rfl

theorem merged_severity_singleton (r : NormRecord) :
    _calculate_merged_severity [r] = reverse_severity (sevRank r.severity) := by
  unfold _calculate_merged_severity
  simp

theorem get_most_common_spec (column : List (Option String)) :
    AttrSpec column (_get_most_common column) := by
  unfold AttrSpec _get_most_common
  split
  · rename_i h
    rw [h]
    rfl
  · rename_i h
    rcases pandasMode_spec (column.filterMap id) h with ⟨v, hv, hmem, hpref⟩
    refine ⟨v, hv, hmem, ?_, ?_⟩
    · intro w hw
      rcases hpref w hw with h1 | ⟨h1, _⟩
      · exact le_of_lt h1
      · exact le_of_eq h1
    · intro w hw hc
      rcases hpref w hw with h1 | ⟨_, h2⟩
      · exact absurd hc (ne_of_lt h1)
      · exact h2

/-! ## Claim theorems for the Merge/Dedupe Engine -/

/-- **C2**: for every non-empty merge group, the merged `confidence` is an
upper bound of the contributing confidences and is attained by one of them —
i.e. it equals the group maximum, hence lies between the minimum and the
maximum — and if every contributing confidence lies in [0,1] it never
exceeds 1. -/
theorem C2_confidence_max (g : List NormRecord) (i t : String) (hg : g ≠ []) :
    (∀ r ∈ g, r.confidence ≤ (_merge_group g i t).confidence)
    ∧ (∃ r ∈ g, (_merge_group g i t).confidence = r.confidence)
    ∧ ((∀ r ∈ g, 0 ≤ r.confidence ∧ r.confidence ≤ 1) →
        (_merge_group g i t).confidence ≤ 1) := by
  have hmap : g.map (·.confidence) ≠ [] := by
    cases g
    · exact absurd rfl hg
    · simp
  refine ⟨?_, ?_, ?_⟩
  · intro r hr
    rw [merge_group_confidence]
    exact le_seriesMax 0 _ _ (List.mem_map_of_mem _ hr)
  · have hm := seriesMax_mem 0 (g.map (·.confidence)) hmap
    rcases List.mem_map.1 hm with ⟨r, hr, he⟩
    exact ⟨r, hr, by rw [merge_group_confidence, ← he]⟩
  · intro hb
    have hm := seriesMax_mem 0 (g.map (·.confidence)) hmap
    rcases List.mem_map.1 hm with ⟨r, hr, he⟩
    rw [merge_group_confidence, ← he]
    exact (hb r hr).2

/-- Witness for C2: a concrete two-record group with confidences 0 and 1. -/
theorem C2_confidence_max_witness :
    (([c2rA, c2rB] : List NormRecord) ≠ [])
    ∧ ((∀ r ∈ [c2rA, c2rB],
          r.confidence ≤ (_merge_group [c2rA, c2rB] "9.9.9.9" "ip").confidence)
      ∧ (∃ r ∈ [c2rA, c2rB],
          (_merge_group [c2rA, c2rB] "9.9.9.9" "ip").confidence = r.confidence)
      ∧ ((∀ r ∈ [c2rA, c2rB], 0 ≤ r.confidence ∧ r.confidence ≤ 1) →
          (_merge_group [c2rA, c2rB] "9.9.9.9" "ip").confidence ≤ 1)) :=
  ⟨by simp, C2_confidence_max [c2rA, c2rB] "9.9.9.9" "ip" (by simp)⟩

/-- **C3**: `process` emits exactly one merged row per distinct
(indicator, type) pair of the input — the output key list is duplicate-free
and has the same members as the input key list — and each merged row's
`source_count` is the number of distinct sources among that pair's records,
which is at least 1. -/
theorem C3_unique_per_key (l : List NormRecord) :
    ((process l).map (fun m => (m.indicator, m.type))).Nodup
    ∧ (∀ p : String × String,
        (p ∈ (process l).map (fun m => (m.indicator, m.type))) ↔ p ∈ l.map groupKey)
    ∧ ∀ m ∈ process l,
        m.source_count =
          (pdUnique ((l.filter
            (fun r => r.indicator = m.indicator ∧ r.type = m.type)).map (·.source))).length
        ∧ 1 ≤ m.source_count := by
  refine ⟨?_, ?_, ?_⟩
  · rw [process_keys]
    exact pdUnique_nodup _
  · intro p
    rw [process_keys]
    exact mem_pdUnique _ p
  · intro m hm
    rcases List.mem_map.1 hm with ⟨k, hk, he⟩
    subst he
    have hfilter : l.filter (fun r =>
        r.indicator = (_merge_group (groupOf l k) k.1 k.2).indicator
          ∧ r.type = (_merge_group (groupOf l k) k.1 k.2).type) = groupOf l k := by
    -- the claim's filter predicate coincides with the groupby predicate
      unfold groupOf
      apply List.filter_congr
      intro r _
      simp [groupKey, Prod.ext_iff, merge_group_indicator, merge_group_type]
    have hne : groupOf l k ≠ [] := by
      have hkl : k ∈ l.map groupKey := (mem_pdUnique _ _).1 hk
      rcases List.mem_map.1 hkl with ⟨r, hr, hkey⟩
      have : r ∈ groupOf l k := by
        unfold groupOf
        rw [List.mem_filter]
        exact ⟨hr, by simp [hkey]⟩
      exact List.ne_nil_of_mem this
    constructor
    · rw [hfilter, merge_group_source_count]
    · rw [merge_group_source_count]
      have hmapne : (groupOf l k).map (·.source) ≠ [] := by
        cases h : groupOf l k
        · exact absurd h hne
        · simp
      have := pdUnique_ne_nil hmapne
      exact Nat.pos_of_ne_zero (fun hz => this (List.eq_nil_of_length_eq_zero hz))

/-- Witness for C3 at a concrete one-record batch. -/
theorem C3_unique_per_key_witness :
    c3m ∈ process [c3r]
    ∧ (c3m.source_count =
        (pdUnique (([c3r].filter
          (fun r => r.indicator = c3m.indicator ∧ r.type = c3m.type)).map (·.source))).length
      ∧ 1 ≤ c3m.source_count) :=
  ⟨by decide, (C3_unique_per_key [c3r]).2.2 c3m (by decide)⟩

/-- **C4**: merging is idempotent — re-running `process` on its own output,
fed back as single-source input, yields one row per indicator with the same
reconciled severity and confidence as merging once. -/
theorem C4_idempotent (l : List NormRecord) :
    (process ((process l).map mergedToInput)).length = (process l).length
    ∧ ∀ m ∈ process l, ∃ m' ∈ process ((process l).map mergedToInput),
        m'.indicator = m.indicator ∧ m'.type = m.type
        ∧ m'.severity = m.severity ∧ m'.confidence = m.confidence := by
  have hkeys : ((process l).map mergedToInput).map groupKey = pdUnique (l.map groupKey) := by
    rw [List.map_map]
    have hcomp : (groupKey ∘ mergedToInput) =
        fun m : MergedRecord => (m.indicator, m.type) := rfl
    rw [hcomp, process_keys]
  have hnd : (((process l).map mergedToInput).map groupKey).Nodup := by
    rw [hkeys]
    exact pdUnique_nodup _
  have hpd : pdUnique (((process l).map mergedToInput).map groupKey) =
      pdUnique (l.map groupKey) := by
    rw [pdUnique_eq_of_nodup _ hnd, hkeys]
  constructor
  · show ((pdUnique (((process l).map mergedToInput).map groupKey)).map _).length =
      ((pdUnique (l.map groupKey)).map _).length
    rw [hpd]
    simp
  · intro m hm
    rcases List.mem_map.1 hm with ⟨k, hk, he⟩
    have hmem2 : mergedToInput m ∈ (process l).map mergedToInput :=
      List.mem_map_of_mem _ hm
    have hkeym : groupKey (mergedToInput m) = k := by
      subst he
      simp [groupKey, mergedToInput, merge_group_indicator, merge_group_type]
    have hgrp : groupOf ((process l).map mergedToInput) k = [mergedToInput m] := by
      unfold groupOf
      rw [← hkeym]
      exact filter_key_singleton groupKey _ hnd _ hmem2
    refine ⟨_merge_group (groupOf ((process l).map mergedToInput) k) k.1 k.2, ?_, ?_, ?_, ?_, ?_⟩
    · show _ ∈ (pdUnique (((process l).map mergedToInput).map groupKey)).map _
      rw [hpd]
      exact List.mem_map_of_mem _ hk
    · subst he
      rfl
    · subst he
      rfl
    · rw [merge_group_severity, hgrp, merged_severity_singleton]
      show reverse_severity (sevRank m.severity) = m.severity
      subst he
      rw [merge_group_severity]
      show reverse_severity (sevRank (_calculate_merged_severity (groupOf l k))) =
        _calculate_merged_severity (groupOf l k)
      unfold _calculate_merged_severity
      exact reverse_sevRank_reverse _
    · rw [merge_group_confidence, hgrp]
      rfl

/-- Witness for C4 at a concrete one-record batch. -/
theorem C4_idempotent_witness :
    c4m ∈ process [c4r]
    ∧ ∃ m' ∈ process ((process [c4r]).map mergedToInput),
        m'.indicator = c4m.indicator ∧ m'.type = c4m.type
        ∧ m'.severity = c4m.severity ∧ m'.confidence = c4m.confidence :=
  ⟨by decide, (C4_idempotent [c4r]).2 c4m (by decide)⟩

/-- **C6 counterexample**: the code resolves categorical attributes with
`dropna()` + `mode().iloc[0]`, so on a concrete group it returns the
lexicographically least modal value ("A") where the spec's first-encountered
rule gives "B", and it lets the empty string win ("" instead of "X") where the
spec's rule excludes empty values. -/
theorem C6_counterexample :
    (_merge_group [c6rA, c6rB, c6rC] "5.5.5.5" "ip").asn ≠
      specMostCommon ([c6rA, c6rB, c6rC].map (·.asn))
    ∧ (_merge_group [c6rA, c6rB, c6rC] "5.5.5.5" "ip").country ≠
      specMostCommon ([c6rA, c6rB, c6rC].map (·.country))
    ∧ (_merge_group [c6rA, c6rB, c6rC] "5.5.5.5" "ip").asn = some "A"
    ∧ specMostCommon ([c6rA, c6rB, c6rC].map (·.asn)) = some "B"
    ∧ (_merge_group [c6rA, c6rB, c6rC] "5.5.5.5" "ip").country = some ""
    ∧ specMostCommon ([c6rA, c6rB, c6rC].map (·.country)) = some "X" := by
  decide

/-- **C6 amended**: each categorical attribute of the merged record is the
most frequent non-null value of that column — empty strings included — with
count ties broken by the least value in code-point order (and `none` exactly
when the column is all null). -/
theorem C6_mode_amended (g : List NormRecord) (i t : String) :
    AttrSpec (g.map (·.asn)) ((_merge_group g i t).asn)
    ∧ AttrSpec (g.map (·.country)) ((_merge_group g i t).country)
    ∧ AttrSpec (g.map (·.organization)) ((_merge_group g i t).organization) :=
  ⟨get_most_common_spec _, get_most_common_spec _, get_most_common_spec _⟩

/-- **C7**: for a non-empty group whose severities all lie in
{low, medium, high, critical}, the merged severity is the severity of a
record whose rank dominates the whole group — the maximum on the ordinal
scale low < medium < high < critical. -/
theorem C7_severity_max (g : List NormRecord) (i t : String) (hg : g ≠ [])
    (hvalid : ∀ r ∈ g, r.severity = "low" ∨ r.severity = "medium" ∨
      r.severity = "high" ∨ r.severity = "critical") :
    ∃ r ∈ g, (_merge_group g i t).severity = r.severity
      ∧ ∀ s ∈ g, sevRank s.severity ≤ sevRank r.severity := by
  have hmap : g.map (fun r => sevRank r.severity) ≠ [] := by
    cases g
    · exact absurd rfl hg
    · simp
  have hM := foldl_nat_max_zero_mem _ hmap
  rcases List.mem_map.1 hM with ⟨r, hr, he⟩
  refine ⟨r, hr, ?_, ?_⟩
  · rw [merge_group_severity]
    unfold _calculate_merged_severity
    rw [← he]
    exact sevRank_valid_roundtrip _ (hvalid r hr)
  · intro s hs
    have hle := mem_le_foldl_max (g.map (fun r => sevRank r.severity)) 0 _
      (List.mem_map_of_mem _ hs)
    rw [← he] at hle
    exact hle

/-- Witness for C7: one `low` plus one `critical` record merge to `critical`. -/
theorem C7_severity_max_witness :
    (([c7rA, c7rB] : List NormRecord) ≠ [])
    ∧ (∀ r ∈ [c7rA, c7rB], r.severity = "low" ∨ r.severity = "medium" ∨
        r.severity = "high" ∨ r.severity = "critical")
    ∧ (∃ r ∈ [c7rA, c7rB], (_merge_group [c7rA, c7rB] "4.4.4.4" "ip").severity = r.severity
        ∧ ∀ s ∈ [c7rA, c7rB], sevRank s.severity ≤ sevRank r.severity)
    ∧ (_merge_group [c7rA, c7rB] "4.4.4.4" "ip").severity = "critical" :=
  ⟨by simp, by decide,
    C7_severity_max [c7rA, c7rB] "4.4.4.4" "ip" (by simp) (by decide), by decide⟩

/-! ## Claim theorem for the Threat Scorer -/

/-- **C5**: the clipped `threat_score` always lies in [0,100], and the risk
level is determined by inclusive thresholds on it: ≥80 Critical, ≥60 High,
≥40 Medium, ≥20 Low, else Info — in particular a score of exactly 80 maps to
Critical and 79.999 maps to High. -/
theorem C5_score_range_risk (row : ScoreInput) :
    0 ≤ threat_score row ∧ threat_score row ≤ 100
    ∧ (80 ≤ threat_score row → risk_level row = "Critical")
    ∧ (60 ≤ threat_score row → threat_score row < 80 → risk_level row = "High")
    ∧ (40 ≤ threat_score row → threat_score row < 60 → risk_level row = "Medium")
    ∧ (20 ≤ threat_score row → threat_score row < 40 → risk_level row = "Low")
    ∧ (threat_score row < 20 → risk_level row = "Info")
    ∧ _score_to_risk_level 80 = "Critical"
    ∧ _score_to_risk_level (79999 / 1000) = "High" := by
  refine ⟨le_max_left 0 _, max_le (by norm_num) (min_le_right _ _), ?_, ?_, ?_, ?_, ?_, ?_, ?_⟩
  · intro h80
    unfold risk_level _score_to_risk_level
    rw [if_pos h80]
  · intro h60 h80
    unfold risk_level _score_to_risk_level
    rw [if_neg (not_le.2 h80), if_pos h60]
  · intro h40 h60
    unfold risk_level _score_to_risk_level
    rw [if_neg (by linarith : ¬ (80 : ℚ) ≤ threat_score row),
      if_neg (not_le.2 h60), if_pos h40]
  · intro h20 h40
    unfold risk_level _score_to_risk_level
    rw [if_neg (by linarith : ¬ (80 : ℚ) ≤ threat_score row),
      if_neg (by linarith : ¬ (60 : ℚ) ≤ threat_score row),
      if_neg (not_le.2 h40), if_pos h20]
  · intro h20
    unfold risk_level _score_to_risk_level
    rw [if_neg (by linarith : ¬ (80 : ℚ) ≤ threat_score row),
      if_neg (by linarith : ¬ (60 : ℚ) ≤ threat_score row),
      if_neg (by linarith : ¬ (40 : ℚ) ≤ threat_score row),
      if_neg (not_le.2 h20)]
  · unfold _score_to_risk_level
    rw [if_pos (by norm_num)]
  · unfold _score_to_risk_level
    rw [if_neg (by norm_num), if_pos (by norm_num)]

/-- Witness for C5: a concrete row whose weighted score is 85, hence
Critical. -/
theorem C5_score_range_risk_witness :
    threat_score c5row = 85 ∧ 80 ≤ threat_score c5row ∧ risk_level c5row = "Critical" := by
  have hts : threat_score c5row = 85 := by
    unfold threat_score threat_score_raw c5row _calculate_source_reputation
      source_scores _severity_to_score _calculate_malicious_tags_score
      malicious_terms _calculate_recency_score weights
    simp
    norm_num
  refine ⟨hts, ?_, (C5_score_range_risk c5row).2.2.1 ?_⟩ <;> rw [hts] <;> norm_num

/-! ## Claim theorem for the Normalizer -/

theorem normalize_data_eq_filterMap {Raw NormOut : Type}
    (mapper : Raw → String → Except String NormOut)
    (batch : List (Raw × String)) :
    normalize_data mapper batch =
      batch.filterMap (fun p => normalize mapper p.1 p.2) := by
  unfold normalize_data
  suffices h : ∀ acc : List NormOut,
      batch.foldl (fun acc p =>
        match normalize mapper p.1 p.2 with
        | some n => acc ++ [n]
        | none => acc) acc =
      acc ++ batch.filterMap (fun p => normalize mapper p.1 p.2) by
    simpa using h []
  induction batch with
  | nil => intro acc; simp
  | cons p ps ih =>
    intro acc
    rw [List.foldl_cons, List.filterMap_cons]
    cases hn : normalize mapper p.1 p.2 with
    | none => simp only [hn, ih]
    | some n => simp only [hn, ih, List.append_assoc, List.singleton_append]

/-- **C9**: if mapping one record of a batch raises, `normalize` skips
exactly that record (`none`) and the batch output is the output of the batch
without it — normalization of the other records is unaffected, and no
exception escapes (`normalize` and `normalize_data` are total functions). -/
theorem C9_record_isolation {Raw NormOut : Type}
    (mapper : Raw → String → Except String NormOut)
    (batch : List (Raw × String)) (i : Nat) (hi : i < batch.length) (err : String)
    (herr : mapper (batch.get ⟨i, hi⟩).1 (batch.get ⟨i, hi⟩).2 = Except.error err) :
    normalize mapper (batch.get ⟨i, hi⟩).1 (batch.get ⟨i, hi⟩).2 = none
    ∧ normalize_data mapper batch =
        normalize_data mapper (batch.take i ++ batch.drop (i + 1)) := by
  have hnone : normalize mapper (batch.get ⟨i, hi⟩).1 (batch.get ⟨i, hi⟩).2 = none := by
    unfold normalize
    rw [herr]
  refine ⟨hnone, ?_⟩
  rw [normalize_data_eq_filterMap, normalize_data_eq_filterMap]
  conv_lhs => rw [← List.take_append_drop i batch]
  rw [List.drop_eq_getElem_cons hi]
  rw [List.filterMap_append, List.filterMap_append, List.filterMap_cons]
  have : batch[i] = batch.get ⟨i, hi⟩ := rfl
  rw [this, hnone]

/-- Witness for C9: in a three-record batch whose middle record raises, the
middle record is dropped and the other two normalize as if it were absent. -/
theorem C9_record_isolation_witness :
    c9mapper (c9batch.get ⟨1, by decide⟩).1 (c9batch.get ⟨1, by decide⟩).2 = Except.error "boom"
    ∧ (normalize c9mapper (c9batch.get ⟨1, by decide⟩).1 (c9batch.get ⟨1, by decide⟩).2 = none
      ∧ normalize_data c9mapper c9batch =
          normalize_data c9mapper (c9batch.take 1 ++ c9batch.drop 2)) :=
  ⟨rfl, C9_record_isolation c9mapper c9batch 1 (by decide) "boom" rfl⟩

/-! ## String lemmas for the graph node ids -/

theorem str_ext {v w : String} (h : v.data = w.data) : v = w := by
  cases v
  cases w
  exact congrArg String.mk h

theorem str_append_left_cancel {p v w : String} (h : p ++ v = p ++ w) : v = w := by
  apply str_ext
  have hd := congrArg String.data h
  rw [String.data_append p v, String.data_append p w] at hd
  exact List.append_cancel_left hd

theorem str_append_right_cancel {v w p : String} (h : v ++ p = w ++ p) : v = w := by
  apply str_ext
  have hd := congrArg String.data h
  rw [String.data_append v p, String.data_append w p] at hd
  exact List.append_cancel_right hd

theorem append_ne_of_head_ne (a b v w : String) (c d : Char) (cs ds : List Char)
    (ha : a.data = c :: cs) (hb : b.data = d :: ds) (hcd : c ≠ d) :
    a ++ v ≠ b ++ w := by
  intro h
  have hd := congrArg String.data h
  rw [String.data_append a v, String.data_append b w, ha, hb] at hd
  simp at hd
  exact hcd hd.1

theorem reconId_inj {a b : String} (h : reconId a = reconId b) : a = b := by
  unfold reconId at h
  cases ha : containsDot a <;> cases hb : containsDot b <;>
    simp only [ha, hb, if_true, if_false, Bool.false_eq_true] at h
  · exact str_append_left_cancel h
  · exact absurd h (append_ne_of_head_ne "domain_" "ip_" _ _ 'd' 'i' _ _ rfl rfl (by decide))
  · exact absurd h (append_ne_of_head_ne "ip_" "domain_" _ _ 'i' 'd' _ _ rfl rfl (by decide))
  · exact str_append_left_cancel h

/-! ## Basic graph lemmas -/

theorem addNode_edges (g : Graph) (id : String) : (addNode g id).edges = g.edges := by
  unfold addNode
  split <;> rfl

theorem addNode_nodes_mono {g : Graph} {n : String} (id : String) (h : n ∈ g.nodes) :
    n ∈ (addNode g id).nodes := by
  unfold addNode
  split
  · exact h
  · exact List.mem_append_left _ h

theorem addNode_nodes_self (g : Graph) (id : String) : id ∈ (addNode g id).nodes := by
  unfold addNode
  split
  · assumption
  · simp

theorem buildNodes_edges (rows : List ScoredRow) (g : Graph) :
    (rows.foldl (fun g r => addNode g (nodeId r)) g).edges = g.edges := by
  induction rows generalizing g with
  | nil => rfl
  | cons r rows ih => rw [List.foldl_cons, ih, addNode_edges]

theorem buildNodes_nodes_mono (rows : List ScoredRow) (g : Graph) {n : String}
    (h : n ∈ g.nodes) : n ∈ (rows.foldl (fun g r => addNode g (nodeId r)) g).nodes := by
  induction rows generalizing g with
  | nil => exact h
  | cons r rows ih => exact ih _ (addNode_nodes_mono _ h)

theorem buildNodes_mem (rows : List ScoredRow) (g : Graph) (r : ScoredRow)
    (hr : r ∈ rows) : nodeId r ∈ (rows.foldl (fun g r => addNode g (nodeId r)) g).nodes := by
  induction rows generalizing g with
  | nil => cases hr
  | cons r' rows ih =>
    rcases List.mem_cons.1 hr with rfl | hr
    · exact buildNodes_nodes_mono rows _ (addNode_nodes_self g (nodeId r))
    · exact ih _ hr

/-! ## Endpoint-shape invariant (C10) -/

theorem reconId_form (v : String) : EndpointForm (reconId v) := by
  unfold reconId EndpointForm
  cases h : containsDot v
  · exact Or.inr ⟨v, h, by simp⟩
  · exact Or.inl ⟨v, h, by simp⟩

theorem appendRel_endpoints (es : List Edge) (a b : String) (t : String × String) :
    ∀ e' ∈ appendRel es a b t, ∃ e ∈ es, e'.u = e.u ∧ e'.v = e.v := by
  induction es with
  | nil => intro e' he'; cases he'
  | cons e es ih =>
    unfold appendRel
    split
    · intro e' he'
      rcases List.mem_cons.1 he' with rfl | he'
      · exact ⟨e, List.mem_cons_self e es, rfl, rfl⟩
      · exact ⟨e', List.mem_cons_of_mem e he', rfl, rfl⟩
    · intro e' he'
      rcases List.mem_cons.1 he' with rfl | he'
      · exact ⟨e', List.mem_cons_self e' es, rfl, rfl⟩
      · rcases ih e' he' with ⟨e₀, he₀, hu, hv⟩
        exact ⟨e₀, List.mem_cons_of_mem e he₀, hu, hv⟩

theorem EdgesWF_createEdgeStep (rel value : String) (g : Graph) (p : String × String)
    (h : EdgesWF g) : EdgesWF (createEdgeStep rel value g p) := by
  unfold createEdgeStep
  split
  · split
    · intro e' he'
      rcases appendRel_endpoints g.edges _ _ _ e' he' with ⟨e, he, hu, hv⟩
      exact ⟨by rw [hu]; exact (h e he).1, by rw [hv]; exact (h e he).2⟩
    · intro e' he'
      rcases List.mem_append.1 he' with he' | he'
      · exact h e' he'
      · rcases List.mem_singleton.1 he' with rfl
        exact ⟨reconId_form _, reconId_form _⟩
  · exact h

theorem EdgesWF_create_edges (g : Graph) (inds : List String) (rel value : String)
    (h : EdgesWF g) : EdgesWF (_create_edges g inds rel value) := by
  unfold _create_edges
  generalize combinations inds = ps
  induction ps generalizing g with
  | nil => exact h
  | cons p ps ih => exact ih _ (EdgesWF_createEdgeStep rel value g p h)

theorem EdgesWF_link_by (attr : ScoredRow → String) (rel : String)
    (rows : List ScoredRow) (g : Graph) (h : EdgesWF g) :
    EdgesWF (_link_by attr rel rows g) := by
  unfold _link_by
  generalize pdUnique (rows.map attr) = keys
  induction keys generalizing g with
  | nil => exact h
  | cons k keys ih =>
    rw [List.foldl_cons]
    apply ih
    unfold linkStep
    split
    · exact EdgesWF_create_edges g _ rel k h
    · exact h

theorem EdgesWF_build_graph (rows : List ScoredRow) : EdgesWF (build_graph rows) := by
  unfold build_graph
  apply EdgesWF_link_by
  apply EdgesWF_link_by
  apply EdgesWF_link_by
  intro e he
  rw [buildNodes_edges] at he
  cases he

theorem endpoint_ne_bad {s : String} (hEF : EndpointForm s) (r : ScoredRow)
    (hbad : (r.type = "domain" ∧ containsDot r.indicator = true) ∨ r.type = "url" ∨
      r.type = "hash_md5" ∨ r.type = "hash_sha1" ∨ r.type = "hash_sha256") :
    s ≠ nodeId r := by
  have hnode : nodeId r = (r.type ++ "_") ++ r.indicator := rfl
  rcases hEF with ⟨v, hdot, rfl⟩ | ⟨v, hdot, rfl⟩ <;>
    rcases hbad with ⟨htype, hind⟩ | htype | htype | htype | htype <;>
    rw [hnode, htype]
  · exact append_ne_of_head_ne "ip_" ("domain" ++ "_") _ _ 'i' 'd' _ _ rfl rfl (by decide)
  · exact append_ne_of_head_ne "ip_" ("url" ++ "_") _ _ 'i' 'u' _ _ rfl rfl (by decide)
  · exact append_ne_of_head_ne "ip_" ("hash_md5" ++ "_") _ _ 'i' 'h' _ _ rfl rfl (by decide)
  · exact append_ne_of_head_ne "ip_" ("hash_sha1" ++ "_") _ _ 'i' 'h' _ _ rfl rfl (by decide)
  · exact append_ne_of_head_ne "ip_" ("hash_sha256" ++ "_") _ _ 'i' 'h' _ _ rfl rfl (by decide)
  · intro h
    have : ("domain_" : String) ++ v = "domain_" ++ r.indicator := h
    have hv := str_append_left_cancel this
    rw [hv, hind] at hdot
    cases hdot
  · exact append_ne_of_head_ne "domain_" ("url" ++ "_") _ _ 'd' 'u' _ _ rfl rfl (by decide)
  · exact append_ne_of_head_ne "domain_" ("hash_md5" ++ "_") _ _ 'd' 'h' _ _ rfl rfl (by decide)
  · exact append_ne_of_head_ne "domain_" ("hash_sha1" ++ "_") _ _ 'd' 'h' _ _ rfl rfl (by decide)
  · exact append_ne_of_head_ne "domain_" ("hash_sha256" ++ "_") _ _ 'd' 'h' _ _ rfl rfl (by decide)

/-- **C10**: in every graph `build_graph` produces, each edge endpoint id is
`"ip_" ++ v` for a dotted value `v` or `"domain_" ++ v` for a dot-free `v`
(because `_create_edges` reconstructs ids from bare values by the dot
heuristic); consequently nodes created for rows typed `domain` (with dotted
value), `url`, or any hash type never have an incident edge. -/
theorem C10_edge_endpoints (rows : List ScoredRow) :
    (∀ e ∈ (build_graph rows).edges, EndpointForm e.u ∧ EndpointForm e.v)
    ∧ (∀ r ∈ rows,
        ((r.type = "domain" ∧ containsDot r.indicator = true) ∨ r.type = "url" ∨
          r.type = "hash_md5" ∨ r.type = "hash_sha1" ∨ r.type = "hash_sha256") →
        ∀ e ∈ (build_graph rows).edges, e.u ≠ nodeId r ∧ e.v ≠ nodeId r) := by
  refine ⟨EdgesWF_build_graph rows, ?_⟩
  intro r _ hbad e he
  have hwf := EdgesWF_build_graph rows e he
  exact ⟨endpoint_ne_bad hwf.1 r hbad, endpoint_ne_bad hwf.2 r hbad⟩

/-- Witness for C10: a dataset with two linked IPs and a url row sharing the
same ASN — the url row's node gets no edge. -/
theorem C10_edge_endpoints_witness :
    c10e ∈ (build_graph c10rows).edges
    ∧ (EndpointForm c10e.u ∧ EndpointForm c10e.v)
    ∧ c10r ∈ c10rows
    ∧ (c10e.u ≠ nodeId c10r ∧ c10e.v ≠ nodeId c10r) :=
  ⟨by decide, (C10_edge_endpoints c10rows).1 c10e (by decide), by decide,
    (C10_edge_endpoints c10rows).2 c10r (by decide) (Or.inr (Or.inl rfl)) c10e (by decide)⟩

/-! ## DFS traversal (C8) -/

theorem reachesWithin_refl (g : Graph) (n : Nat) (u : String) :
    reachesWithin g n u u = true := by
  cases n <;> simp [reachesWithin]

theorem reachesWithin_step (g : Graph) (n : Nat) (u nb v : String)
    (hnb : nb ∈ neighbors g u) (h : reachesWithin g n nb v = true) :
    reachesWithin g (n + 1) u v = true := by
  unfold reachesWithin
  simp only [Bool.or_eq_true, List.any_eq_true]
  exact Or.inr ⟨nb, hnb, h⟩

/-- Everything the DFS appends to `related` at fuel `f` is reachable from the
current node within `f - 1` steps. -/
theorem dfs_sound (g : Graph) :
    ∀ (fuel : Nat) (c : String) (st : List String × List String),
      ∀ v ∈ (dfsAux g fuel c st).2,
        v ∈ st.2 ∨ (1 ≤ fuel ∧ reachesWithin g (fuel - 1) c v = true) := by
  intro fuel
  induction fuel with
  | zero => exact fun c st v hv => Or.inl hv
  | succ fuel ih =>
    intro c st v hv
    unfold dfsAux at hv
    split at hv
    · exact Or.inl hv
    · have hfold : ∀ (ns : List String) (st' : List String × List String),
          ∀ v ∈ (ns.foldl (fun st nb => dfsAux g fuel nb st) st').2,
            v ∈ st'.2 ∨ ∃ nb ∈ ns, 1 ≤ fuel ∧ reachesWithin g (fuel - 1) nb v = true := by
        intro ns
        induction ns with
        | nil => exact fun st' v hv => Or.inl hv
        | cons n ns ihn =>
          intro st' v hv
          rw [List.foldl_cons] at hv
          rcases ihn _ v hv with h | ⟨nb, hnb, hr⟩
          · rcases ih n st' v h with h' | h'
            · exact Or.inl h'
            · exact Or.inr ⟨n, List.mem_cons_self n ns, h'⟩
          · exact Or.inr ⟨nb, List.mem_cons_of_mem n hnb, hr⟩
      rcases hfold (neighbors g c) _ v hv with h | ⟨nb, hnb, hfuel, hr⟩
      · rcases List.mem_append.1 h with h | h
        · exact Or.inl h
        · rcases List.mem_singleton.1 h with rfl
          exact Or.inr ⟨Nat.le_add_left 1 fuel, by simpa using reachesWithin_refl g fuel v⟩
      · refine Or.inr ⟨by omega, ?_⟩
        have hf : fuel = (fuel - 1) + 1 := by omega
        rw [show fuel + 1 - 1 = fuel from rfl, hf]
        exact reachesWithin_step g (fuel - 1) c nb v hnb hr

/-- **C8 counterexample**: on a concrete four-IP graph (clique {1.1.1.1,
4.4.4.4, 2.2.2.2} via a shared ASN, plus 2.2.2.2—3.3.3.3 via a shared
country), `find_related_indicators("1.1.1.1", 2)` misses `ip_3.3.3.3`
although it is reachable in 2 steps: the DFS first reaches 2.2.2.2 at depth
2 through 4.4.4.4 and marks it visited, so its neighbor 3.3.3.3 is never
explored — the result is not the full set of nodes reachable within the
depth. -/
theorem C8_counterexample :
    find_related_indicators (build_graph c8rows) "1.1.1.1" 2
      = ["ip_4.4.4.4", "ip_2.2.2.2"]
    ∧ reachesWithin (build_graph c8rows) 2 (reconId "1.1.1.1") "ip_3.3.3.3" = true
    ∧ "ip_3.3.3.3" ≠ reconId "1.1.1.1"
    ∧ "ip_3.3.3.3" ∉ find_related_indicators (build_graph c8rows) "1.1.1.1" 2 := by
  decide

/-- **C8 amended**: every indicator returned by `find_related_indicators` is
distinct from the start node and reachable from it within `max_depth` edges
(soundness); the traversal may omit reachable nodes, as the counterexample
shows, so it returns a subset — not exactly the set — of the nodes reachable
within the depth. -/
theorem C8_related_sound (g : Graph) (indicator : String) (max_depth : Nat) :
    ∀ v ∈ find_related_indicators g indicator max_depth,
      v ≠ reconId indicator
      ∧ reachesWithin g max_depth (reconId indicator) v = true := by
  intro v hv
  unfold find_related_indicators at hv
  split at hv
  · rw [List.mem_filter] at hv
    refine ⟨by simpa using hv.2, ?_⟩
    rcases dfs_sound g (max_depth + 1) (reconId indicator) ([], []) v hv.1 with h | ⟨_, h⟩
    · cases h
    · simpa using h
  · cases hv

/-- Witness for C8: a returned neighbor is indeed reachable. -/
theorem C8_related_sound_witness :
    "ip_4.4.4.4" ∈ find_related_indicators (build_graph c8rows) "1.1.1.1" 2
    ∧ ("ip_4.4.4.4" ≠ reconId "1.1.1.1"
      ∧ reachesWithin (build_graph c8rows) 2 (reconId "1.1.1.1") "ip_4.4.4.4" = true) :=
  ⟨by decide, C8_related_sound (build_graph c8rows) "1.1.1.1" 2 "ip_4.4.4.4" (by decide)⟩

/-! ## Edge bookkeeping for the linking passes (C1) -/

theorem edgeMatches_true_iff (e : Edge) (a b : String) :
    edgeMatches e a b = true ↔ pairEq e.u e.v a b := by
  simp [edgeMatches, pairEq]

theorem edgeMatches_comm (e : Edge) (a b : String) :
    edgeMatches e a b = edgeMatches e b a := by
  unfold edgeMatches
  exact decide_eq_decide.2 (by tauto)

theorem edgeMatches_congr {a b c d : String} (h : pairEq a b c d) (e : Edge) :
    edgeMatches e a b = edgeMatches e c d := by
  rcases h with ⟨rfl, rfl⟩ | ⟨rfl, rfl⟩
  · rfl
  · exact edgeMatches_comm e _ _

theorem pairEq_of_both (e : Edge) {a b c d : String} (h1 : edgeMatches e a b = true)
    (h2 : edgeMatches e c d = true) : pairEq a b c d := by
  rw [edgeMatches_true_iff] at h1 h2
  rcases h1 with ⟨rfl, rfl⟩ | ⟨rfl, rfl⟩ <;> rcases h2 with ⟨rfl, rfl⟩ | ⟨rfl, rfl⟩ <;>
    first
    | exact Or.inl ⟨rfl, rfl⟩
    | exact Or.inr ⟨rfl, rfl⟩

theorem hasEdge_false_iff (g : Graph) (a b : String) :
    hasEdge g a b = false ↔ edgesBetween g a b = [] := by
  unfold hasEdge edgesBetween
  simp [List.any_eq_false, List.filter_eq_nil_iff]

theorem length_le_one_cases {α : Type} (l : List α) (h : l.length ≤ 1) :
    l = [] ∨ ∃ e, l = [e] := by
  cases l with
  | nil => exact Or.inl rfl
  | cons e es =>
    cases es with
    | nil => exact Or.inr ⟨e, rfl⟩
    | cons e' es' => simp at h

/-- A no-op of `appendRel` on the filter for a different unordered pair. -/
theorem filter_appendRel_frame (es : List Edge) (n1 n2 a b : String)
    (t : String × String) (hnp : ¬ pairEq n1 n2 a b) :
    (appendRel es n1 n2 t).filter (fun e => edgeMatches e a b) =
      es.filter (fun e => edgeMatches e a b) := by
  induction es with
  | nil => rfl
  | cons e es ih =>
    unfold appendRel
    split
    · rename_i hm
      have hnab : edgeMatches e a b = false := by
        cases h2 : edgeMatches e a b
        · rfl
        · exact absurd (pairEq_of_both e hm h2) hnp
      have he' : edgeMatches { e with relationships := e.relationships ++ [t] } a b
          = edgeMatches e a b := rfl
      rw [List.filter_cons, List.filter_cons, he', hnab]
      simp
    · rw [List.filter_cons, List.filter_cons, ih]

/-- When {n1, n2} already has exactly one edge, `appendRel` extends its
relationship list in place. -/
theorem filter_appendRel_hit (es : List Edge) (n1 n2 : String) (t : String × String)
    (e₀ : Edge) (hsingle : es.filter (fun e => edgeMatches e n1 n2) = [e₀]) :
    (appendRel es n1 n2 t).filter (fun e => edgeMatches e n1 n2) =
      [{ e₀ with relationships := e₀.relationships ++ [t] }] := by
  induction es with
  | nil => simp at hsingle
  | cons e es ih =>
    unfold appendRel
    split
    · rename_i hm
      rw [List.filter_cons, hm] at hsingle
      simp only [if_true] at hsingle
      have he : e = e₀ := (List.cons_eq_cons.1 hsingle).1
      have hrest : es.filter (fun e => edgeMatches e n1 n2) = [] :=
        (List.cons_eq_cons.1 hsingle).2
      have he' : edgeMatches { e with relationships := e.relationships ++ [t] } n1 n2
          = edgeMatches e n1 n2 := rfl
      rw [List.filter_cons, he', hm]
      simp only [if_true]
      rw [hrest, he]
    · rename_i hm
      rw [Bool.not_eq_true] at hm
      rw [List.filter_cons, hm] at hsingle
      simp only [Bool.false_eq_true, if_false] at hsingle
      rw [List.filter_cons, hm]
      simp only [Bool.false_eq_true, if_false]
      exact ih hsingle

/-- How one `combinations` iteration affects the pair {u, v}: nothing unless
the iteration hits exactly that pair with both nodes present, in which case
one relationship tag is appended (creating the edge if it did not exist). -/
theorem createEdgeStep_pair (rel value : String) (g : Graph) (p : String × String)
    (u v : String) (hle : (edgesBetween g u v).length ≤ 1) :
    (createEdgeStep rel value g p).nodes = g.nodes
    ∧ (edgesBetween (createEdgeStep rel value g p) u v).length ≤ 1
    ∧ pairRels (createEdgeStep rel value g p) u v =
        pairRels g u v ++
          (if pairHits p u v ∧ reconId p.1 ∈ g.nodes ∧ reconId p.2 ∈ g.nodes
            then [(rel, value)] else []) := by
  unfold createEdgeStep
  split
  · rename_i hnodes
    rw [Bool.and_eq_true] at hnodes
    have hn1 : reconId p.1 ∈ g.nodes := by simpa [hasNode] using hnodes.1
    have hn2 : reconId p.2 ∈ g.nodes := by simpa [hasNode] using hnodes.2
    by_cases hhit : pairHits p u v
    · have hcongr : ∀ es : List Edge,
          es.filter (fun e => edgeMatches e u v) =
            es.filter (fun e => edgeMatches e (reconId p.1) (reconId p.2)) := by
        intro es
        exact List.filter_congr (fun e _ => (edgeMatches_congr hhit e).symm)
      split
      · rename_i hedge
        have hne' : edgesBetween g u v ≠ [] := by
          intro hnil
          have h0 : edgesBetween g (reconId p.1) (reconId p.2) = [] := by
            unfold edgesBetween at hnil ⊢
            rw [← hcongr]
            exact hnil
          rw [← hasEdge_false_iff] at h0
          rw [hedge] at h0
          cases h0
        rcases length_le_one_cases _ hle with h | ⟨e₀, he₀⟩
        · exact absurd h hne'
        · have hsingle : g.edges.filter
              (fun e => edgeMatches e (reconId p.1) (reconId p.2)) = [e₀] := by
            rw [← hcongr]
            exact he₀
          have hafter : edgesBetween
              { g with edges := appendRel g.edges (reconId p.1) (reconId p.2) (rel, value) }
              u v = [{ e₀ with relationships := e₀.relationships ++ [(rel, value)] }] := by
            unfold edgesBetween
            rw [hcongr]
            exact filter_appendRel_hit g.edges _ _ _ e₀ hsingle
          refine ⟨rfl, ?_, ?_⟩
          · rw [hafter]
            simp
          · unfold pairRels
            rw [hafter, he₀, if_pos ⟨hhit, hn1, hn2⟩]
            simp
      · rename_i hedge
        rw [Bool.not_eq_true] at hedge
        have h0 : edgesBetween g u v = [] := by
          unfold edgesBetween
          rw [hcongr]
          exact (hasEdge_false_iff g _ _).1 hedge
        have hnew : edgeMatches
            (⟨reconId p.1, reconId p.2, [(rel, value)]⟩ : Edge) u v = true :=
          (edgeMatches_true_iff _ _ _).2 hhit
        have hafter : edgesBetween
            { g with edges := g.edges ++ [⟨reconId p.1, reconId p.2, [(rel, value)]⟩] }
            u v = [⟨reconId p.1, reconId p.2, [(rel, value)]⟩] := by
          unfold edgesBetween
          rw [List.filter_append]
          have hl : g.edges.filter (fun e => edgeMatches e u v) = [] := h0
          rw [hl, List.filter_cons, hnew]
          simp
        refine ⟨rfl, ?_, ?_⟩
        · rw [hafter]
          simp
        · unfold pairRels
          rw [hafter, h0, if_pos ⟨hhit, hn1, hn2⟩]
          simp
    · have hfalse : ((pairHits p u v ∧ reconId p.1 ∈ g.nodes ∧ reconId p.2 ∈ g.nodes))
          = False := by
        simp [hhit]
      split
      · rename_i hedge
        have hframe := filter_appendRel_frame g.edges (reconId p.1) (reconId p.2)
          u v (rel, value) hhit
        have hafter : edgesBetween
            { g with edges := appendRel g.edges (reconId p.1) (reconId p.2) (rel, value) }
            u v = edgesBetween g u v := hframe
        refine ⟨rfl, by rw [hafter]; exact hle, ?_⟩
        unfold pairRels
        have hno : ¬ (pairHits p u v ∧ reconId p.1 ∈ g.nodes ∧ reconId p.2 ∈ g.nodes) :=
          fun hc => hhit hc.1
        rw [hafter, if_neg hno]
        simp
      · rename_i hedge
        have hnew : edgeMatches
            (⟨reconId p.1, reconId p.2, [(rel, value)]⟩ : Edge) u v = false := by
          cases h2 : edgeMatches (⟨reconId p.1, reconId p.2, [(rel, value)]⟩ : Edge) u v
          · rfl
          · exact absurd ((edgeMatches_true_iff _ _ _).1 h2) hhit
        have hafter : edgesBetween
            { g with edges := g.edges ++ [⟨reconId p.1, reconId p.2, [(rel, value)]⟩] }
            u v = edgesBetween g u v := by
          unfold edgesBetween
          rw [List.filter_append, List.filter_cons, hnew]
          simp
        refine ⟨rfl, by rw [hafter]; exact hle, ?_⟩
        unfold pairRels
        have hno : ¬ (pairHits p u v ∧ reconId p.1 ∈ g.nodes ∧ reconId p.2 ∈ g.nodes) :=
          fun hc => hhit hc.1
        rw [hafter, if_neg hno]
        simp
  · rename_i hnodes
    refine ⟨rfl, hle, ?_⟩
    rw [if_neg, List.append_nil]
    rintro ⟨_, h1, h2⟩
    exact hnodes (by simp [hasNode, h1, h2])

/-- The pair-level effect of a whole `_create_edges` run: one appended tag
per hitting combination. -/
theorem create_fold_pair (rel value : String) (ps : List (String × String))
    (g : Graph) (u v : String) (hle : (edgesBetween g u v).length ≤ 1)
    (hu : u ∈ g.nodes) (hv : v ∈ g.nodes) :
    ((ps.foldl (createEdgeStep rel value) g).nodes = g.nodes)
    ∧ (edgesBetween (ps.foldl (createEdgeStep rel value) g) u v).length ≤ 1
    ∧ pairRels (ps.foldl (createEdgeStep rel value) g) u v =
        pairRels g u v ++
          List.replicate (ps.countP (fun p => decide (pairHits p u v))) (rel, value) := by
  induction ps generalizing g with
  | nil => exact ⟨rfl, hle, by simp⟩
  | cons p ps ih =>
    rw [List.foldl_cons]
    have hstep := createEdgeStep_pair rel value g p u v hle
    have hnodes := hstep.1
    have hrec := ih (createEdgeStep rel value g p) hstep.2.1
      (by rw [hnodes]; exact hu) (by rw [hnodes]; exact hv)
    refine ⟨by rw [hrec.1, hnodes], hrec.2.1, ?_⟩
    rw [hrec.2.2, hstep.2.2, List.countP_cons]
    by_cases hhit : pairHits p u v
    · have hcond : (pairHits p u v ∧ reconId p.1 ∈ g.nodes ∧ reconId p.2 ∈ g.nodes) := by
        refine ⟨hhit, ?_, ?_⟩ <;> rcases hhit with ⟨h1, h2⟩ | ⟨h1, h2⟩
        · rw [h1]; exact hu
        · rw [h1]; exact hv
        · rw [h2]; exact hv
        · rw [h2]; exact hu
      rw [if_pos hcond, List.append_assoc, List.singleton_append, ← List.replicate_succ]
      simp [hhit]
    · have hno : ¬ (pairHits p u v ∧ reconId p.1 ∈ g.nodes ∧ reconId p.2 ∈ g.nodes) :=
        fun hc => hhit hc.1
      rw [if_neg hno, List.append_nil]
      simp [hhit]

/-! ## Counting combinations (C1) -/

theorem combos_comp_mem {l : List String} {p : String × String}
    (h : p ∈ combinations l) : p.1 ∈ l ∧ p.2 ∈ l := by
  induction l with
  | nil => cases h
  | cons x xs ih =>
    unfold combinations at h
    rcases List.mem_append.1 h with h | h
    · rcases List.mem_map.1 h with ⟨y, hy, rfl⟩
      exact ⟨List.mem_cons_self x xs, List.mem_cons_of_mem x hy⟩
    · rcases ih h with ⟨h1, h2⟩
      exact ⟨List.mem_cons_of_mem x h1, List.mem_cons_of_mem x h2⟩

theorem combos_countP_zero {l : List String} {x y : String}
    (h : x ∉ l ∨ y ∉ l) :
    (combinations l).countP (fun p => decide (p = (x, y) ∨ p = (y, x))) = 0 := by
  rw [List.countP_eq_zero]
  intro p hp hdec
  rcases combos_comp_mem hp with ⟨h1, h2⟩
  rcases (by simpa using hdec : p = (x, y) ∨ p = (y, x)) with rfl | rfl
  · rcases h with h | h
    · exact h h1
    · exact h h2
  · rcases h with h | h
    · exact h h2
    · exact h h1

theorem countP_eq_one_of_nodup_mem {l : List String} (hnd : l.Nodup) {y : String}
    (hy : y ∈ l) : l.countP (fun b => decide (b = y)) = 1 := by
  induction l with
  | nil => cases hy
  | cons a t ih =>
    rcases List.nodup_cons.1 hnd with ⟨hat, hndt⟩
    rw [List.countP_cons]
    rcases List.mem_cons.1 hy with rfl | hy'
    · have h0 : t.countP (fun b => decide (b = y)) = 0 := by
        rw [List.countP_eq_zero]
        intro b hb hdec
        exact hat ((by simpa using hdec : b = y) ▸ hb)
      simp [h0]
    · have hay : ¬ (a = y) := fun h => hat (h ▸ hy')
      rw [ih hndt hy']
      simp [hay]

theorem combos_countP_one {l : List String} (hnd : l.Nodup) {x y : String}
    (hxy : x ≠ y) (hx : x ∈ l) (hy : y ∈ l) :
    (combinations l).countP (fun p => decide (p = (x, y) ∨ p = (y, x))) = 1 := by
  induction l with
  | nil => cases hx
  | cons a t ih =>
    rcases List.nodup_cons.1 hnd with ⟨hat, hndt⟩
    unfold combinations
    rw [List.countP_append, List.countP_map]
    rcases List.mem_cons.1 hx with rfl | hx' <;> rcases List.mem_cons.1 hy with rfl | hy'
    · exact absurd rfl hxy
    · have hmap : t.countP ((fun p => decide (p = (x, y) ∨ p = (y, x))) ∘ fun b => (x, b))
          = t.countP (fun b => decide (b = y)) := by
        apply List.countP_congr
        intro b _
        simp only [Function.comp, decide_eq_true_eq, Prod.mk.injEq]
        constructor
        · rintro (⟨-, hby⟩ | ⟨hxy', -⟩)
          · exact hby
          · exact absurd hxy' hxy
        · intro hby
          exact Or.inl ⟨trivial, hby⟩
      rw [hmap, countP_eq_one_of_nodup_mem hndt hy',
        combos_countP_zero (Or.inl hat)]
    · have hmap : t.countP ((fun p => decide (p = (x, y) ∨ p = (y, x))) ∘ fun b => (y, b))
          = t.countP (fun b => decide (b = x)) := by
        apply List.countP_congr
        intro b _
        simp only [Function.comp, decide_eq_true_eq, Prod.mk.injEq]
        constructor
        · rintro (⟨hyx, -⟩ | ⟨-, hbx⟩)
          · exact absurd hyx.symm hxy
          · exact hbx
        · intro hbx
          exact Or.inr ⟨trivial, hbx⟩
      rw [hmap, countP_eq_one_of_nodup_mem hndt hx',
        combos_countP_zero (Or.inr hat)]
    · have hax : ¬ (a = x) := fun h => hat (h ▸ hx')
      have hay : ¬ (a = y) := fun h => hat (h ▸ hy')
      have hmap : t.countP ((fun p => decide (p = (x, y) ∨ p = (y, x))) ∘ fun b => (a, b))
          = 0 := by
        rw [List.countP_eq_zero]
        intro b _ hdec
        rcases (by simpa [Prod.ext_iff] using hdec :
            (a = x ∧ b = y) ∨ (a = y ∧ b = x)) with ⟨h1, -⟩ | ⟨h1, -⟩
        · exact hax h1
        · exact hay h1
      rw [hmap, ih hndt hx' hy']

/-! ## Pass-level bookkeeping (C1) -/

theorem linkStep_pair (attr : ScoredRow → String) (rel : String)
    (rows : List ScoredRow) (key : String) (g : Graph) (u v : String)
    (hle : (edgesBetween g u v).length ≤ 1) (hu : u ∈ g.nodes) (hv : v ∈ g.nodes) :
    (linkStep attr rel rows g key).nodes = g.nodes
    ∧ (edgesBetween (linkStep attr rel rows g key) u v).length ≤ 1
    ∧ pairRels (linkStep attr rel rows g key) u v =
        pairRels g u v ++ linkContrib attr rel rows u v key := by
  unfold linkStep linkContrib
  split
  · exact create_fold_pair rel key _ g u v hle hu hv
  · exact ⟨rfl, hle, by simp⟩

theorem link_fold_pair (attr : ScoredRow → String) (rel : String)
    (rows : List ScoredRow) (keys : List String) (g : Graph) (u v : String)
    (hle : (edgesBetween g u v).length ≤ 1) (hu : u ∈ g.nodes) (hv : v ∈ g.nodes) :
    (keys.foldl (linkStep attr rel rows) g).nodes = g.nodes
    ∧ (edgesBetween (keys.foldl (linkStep attr rel rows) g) u v).length ≤ 1
    ∧ pairRels (keys.foldl (linkStep attr rel rows) g) u v =
        pairRels g u v ++ (keys.map (linkContrib attr rel rows u v)).flatten := by
  induction keys generalizing g with
  | nil => exact ⟨rfl, hle, by simp⟩
  | cons k keys ih =>
    rw [List.foldl_cons]
    have hstep := linkStep_pair attr rel rows k g u v hle hu hv
    have hrec := ih (linkStep attr rel rows g k) hstep.2.1
      (by rw [hstep.1]; exact hu) (by rw [hstep.1]; exact hv)
    refine ⟨by rw [hrec.1, hstep.1], hrec.2.1, ?_⟩
    rw [hrec.2.2, hstep.2.2, List.map_cons, List.flatten_cons, List.append_assoc]

theorem flatten_eq_nil_of_all {β : Type} (keys : List String) (f : String → List β)
    (h : ∀ k ∈ keys, f k = []) : (keys.map f).flatten = [] := by
  induction keys with
  | nil => rfl
  | cons k keys ih =>
    rw [List.map_cons, List.flatten_cons, h k (List.mem_cons_self k keys),
      List.nil_append]
    exact ih (fun k' hk' => h k' (List.mem_cons_of_mem k hk'))

theorem flatten_eq_single {β : Type} (keys : List String) (f : String → List β)
    (k0 : String) (hnd : keys.Nodup) (hk0 : k0 ∈ keys)
    (h : ∀ k ∈ keys, k ≠ k0 → f k = []) : (keys.map f).flatten = f k0 := by
  induction keys with
  | nil => cases hk0
  | cons k keys ih =>
    rcases List.nodup_cons.1 hnd with ⟨hknotin, hndk⟩
    rw [List.map_cons, List.flatten_cons]
    rcases List.mem_cons.1 hk0 with rfl | hk0'
    · rw [flatten_eq_nil_of_all keys f
        (fun k' hk' => h k' (List.mem_cons_of_mem k0 hk') (fun he => hknotin (he ▸ hk'))),
        List.append_nil]
    · rw [h k (List.mem_cons_self k keys) (fun he => hknotin (he ▸ hk0')), List.nil_append]
      exact ih hndk hk0' (fun k' hk' => h k' (List.mem_cons_of_mem k hk'))

theorem one_lt_length_of_two_mem {α : Type} {l : List α} {a b : α}
    (hab : a ≠ b) (ha : a ∈ l) (hb : b ∈ l) : 1 < l.length := by
  by_contra hcon
  push_neg at hcon
  rcases length_le_one_cases l hcon with rfl | ⟨e, rfl⟩
  · cases ha
  · rcases List.mem_singleton.1 ha with rfl
    rcases List.mem_singleton.1 hb with rfl
    exact hab rfl

/-- The pair-level effect of a whole linking pass, under the amended C1
hypotheses: the pass adds one `(rel, shared value)` tag between
{nodeId r1, nodeId r2} exactly when the two rows share a non-empty attribute
value, and adds nothing between them otherwise. -/
theorem link_by_pair (attr : ScoredRow → String) (rel : String)
    (rows : List ScoredRow) (g : Graph) (r1 r2 : ScoredRow)
    (hr1 : r1 ∈ rows) (hr2 : r2 ∈ rows) (hne12 : r1 ≠ r2)
    (hindinj : ∀ r ∈ rows, ∀ r' ∈ rows, r.indicator = r'.indicator → r = r')
    (hndind : (rows.map (·.indicator)).Nodup)
    (hrec1 : reconId r1.indicator = nodeId r1)
    (hrec2 : reconId r2.indicator = nodeId r2)
    (hle : (edgesBetween g (nodeId r1) (nodeId r2)).length ≤ 1)
    (hu : nodeId r1 ∈ g.nodes) (hv : nodeId r2 ∈ g.nodes) :
    (_link_by attr rel rows g).nodes = g.nodes
    ∧ (edgesBetween (_link_by attr rel rows g) (nodeId r1) (nodeId r2)).length ≤ 1
    ∧ pairRels (_link_by attr rel rows g) (nodeId r1) (nodeId r2) =
        pairRels g (nodeId r1) (nodeId r2) ++
          (if attr r1 = attr r2 ∧ attr r1 ≠ "" then [(rel, attr r1)] else []) := by
  have hind12 : r1.indicator ≠ r2.indicator := fun h => hne12 (hindinj r1 hr1 r2 hr2 h)
  have hfold := link_fold_pair attr rel rows (pdUnique (rows.map attr)) g
    (nodeId r1) (nodeId r2) hle hu hv
  refine ⟨hfold.1, hfold.2.1, ?_⟩
  show pairRels ((pdUnique (rows.map attr)).foldl (linkStep attr rel rows) g) _ _ = _
  rw [hfold.2.2]
  congr 1
  have hmem_grp : ∀ (key x : String),
      x ∈ (rows.filter (fun r => attr r = key)).map (·.indicator) →
      ∃ r ∈ rows, attr r = key ∧ r.indicator = x := by
    intro key x hx
    rcases List.mem_map.1 hx with ⟨r, hrf, rfl⟩
    rcases List.mem_filter.1 hrf with ⟨hrr, hattr⟩
    exact ⟨r, hrr, by simpa using hattr, rfl⟩
  have hhits_imp : ∀ (key : String) (p : String × String),
      p ∈ combinations ((rows.filter (fun r => attr r = key)).map (·.indicator)) →
      pairHits p (nodeId r1) (nodeId r2) → attr r1 = key ∧ attr r2 = key := by
    intro key p hp hhit
    rcases combos_comp_mem hp with ⟨h1, h2⟩
    have key_of : ∀ x, x ∈ (rows.filter (fun r => attr r = key)).map (·.indicator) →
        ∀ r₀, r₀ ∈ rows → r₀.indicator = x → attr r₀ = key := by
      intro x hx r₀ hr₀ hind
      rcases hmem_grp key x hx with ⟨r, hrr, hattr, hrind⟩
      have : r = r₀ := hindinj r hrr r₀ hr₀ (by rw [hrind, hind])
      rw [← this]
      exact hattr
    rcases hhit with ⟨ha, hb⟩ | ⟨ha, hb⟩
    · have hp1 : p.1 = r1.indicator := reconId_inj (by rw [ha, ← hrec1])
      have hp2 : p.2 = r2.indicator := reconId_inj (by rw [hb, ← hrec2])
      exact ⟨key_of p.1 h1 r1 hr1 hp1.symm, key_of p.2 h2 r2 hr2 hp2.symm⟩
    · have hp1 : p.1 = r2.indicator := reconId_inj (by rw [ha, ← hrec2])
      have hp2 : p.2 = r1.indicator := reconId_inj (by rw [hb, ← hrec1])
      exact ⟨key_of p.2 h2 r1 hr1 hp2.symm, key_of p.1 h1 r2 hr2 hp1.symm⟩
  by_cases hmatch : attr r1 = attr r2 ∧ attr r1 ≠ ""
  · rw [if_pos hmatch]
    have hk0mem : attr r1 ∈ pdUnique (rows.map attr) :=
      (mem_pdUnique _ _).2 (List.mem_map_of_mem attr hr1)
    have hr1grp : r1 ∈ rows.filter (fun r => attr r = attr r1) :=
      List.mem_filter.2 ⟨hr1, by simp⟩
    have hr2grp : r2 ∈ rows.filter (fun r => attr r = attr r1) :=
      List.mem_filter.2 ⟨hr2, by simpa using hmatch.1.symm⟩
    have hothers : ∀ k ∈ pdUnique (rows.map attr), k ≠ attr r1 →
        linkContrib attr rel rows (nodeId r1) (nodeId r2) k = [] := by
      intro k _ hkne
      unfold linkContrib
      split
      · have hzero : (combinations ((rows.filter (fun r => attr r = k)).map
            (·.indicator))).countP
            (fun p => decide (pairHits p (nodeId r1) (nodeId r2))) = 0 := by
          rw [List.countP_eq_zero]
          intro p hp hdec
          exact hkne ((hhits_imp k p hp (by simpa using hdec)).1.symm)
        rw [hzero]
        rfl
      · rfl
    have hcontrib : linkContrib attr rel rows (nodeId r1) (nodeId r2) (attr r1)
        = [(rel, attr r1)] := by
      unfold linkContrib
      rw [if_pos ⟨hmatch.2, one_lt_length_of_two_mem hne12 hr1grp hr2grp⟩]
      have hnodupgrp : ((rows.filter (fun r => attr r = attr r1)).map (·.indicator)).Nodup :=
        hndind.sublist ((rows.filter_sublist).map _)
      have hcong : (combinations ((rows.filter (fun r => attr r = attr r1)).map
          (·.indicator))).countP
          (fun p => decide (pairHits p (nodeId r1) (nodeId r2)))
          = (combinations ((rows.filter (fun r => attr r = attr r1)).map
              (·.indicator))).countP
            (fun p => decide (p = (r1.indicator, r2.indicator)
              ∨ p = (r2.indicator, r1.indicator))) := by
        apply List.countP_congr
        intro p _
        simp only [decide_eq_true_eq]
        constructor
        · rintro (⟨ha, hb⟩ | ⟨ha, hb⟩)
          · exact Or.inl (Prod.ext (reconId_inj (by rw [ha, ← hrec1]))
              (reconId_inj (by rw [hb, ← hrec2])))
          · exact Or.inr (Prod.ext (reconId_inj (by rw [ha, ← hrec2]))
              (reconId_inj (by rw [hb, ← hrec1])))
        · rintro (rfl | rfl)
          · exact Or.inl ⟨hrec1, hrec2⟩
          · exact Or.inr ⟨hrec2, hrec1⟩
      rw [hcong, combos_countP_one hnodupgrp hind12
        (List.mem_map_of_mem _ hr1grp) (List.mem_map_of_mem _ hr2grp)]
      rfl
    rw [flatten_eq_single _ _ (attr r1) (pdUnique_nodup _) hk0mem hothers, hcontrib]
  · rw [if_neg hmatch]
    apply flatten_eq_nil_of_all
    intro k _
    unfold linkContrib
    split
    · rename_i hguard
      have hzero : (combinations ((rows.filter (fun r => attr r = k)).map
          (·.indicator))).countP
          (fun p => decide (pairHits p (nodeId r1) (nodeId r2))) = 0 := by
        rw [List.countP_eq_zero]
        intro p hp hdec
        have hkk := hhits_imp k p hp (by simpa using hdec)
        have heq : attr r1 = attr r2 := by rw [hkk.1, hkk.2]
        have hempty : attr r1 = "" := by
          by_contra hne
          exact hmatch ⟨heq, hne⟩
        exact hguard.1 (by rw [← hkk.1, hempty])
      rw [hzero]
      rfl
    · rfl

/-- **C1 counterexample**: two domain rows share the non-empty ASN "AS1",
yet the built graph has no edge at all — `_create_edges` reconstructs their
ids as `ip_a.com`/`ip_b.com` (both values contain dots) while the stored
node ids are `domain_a.com`/`domain_b.com`, so the `has_node` guard fails. -/
theorem C1_counterexample :
    c1rA.asn = c1rB.asn ∧ c1rA.asn ≠ "" ∧ c1rA ≠ c1rB
    ∧ (build_graph [c1rA, c1rB]).edges = [] := by
  decide

/-- **C1 amended**: restricted to datasets whose rows obey the dot heuristic
(the reconstructed id equals the stored node id, i.e. dotted values are typed
`ip` and dot-free values `domain`) and whose (indicator, type) keys are
distinct, every pair of distinct rows sharing a non-empty linking attribute
is joined by exactly one edge whose relationship list carries exactly one
`(relationship_kind, shared_value)` tag per matching attribute, in the pass
order asn, country, organization — never several parallel edges. -/
theorem C1_amended (rows : List ScoredRow)
    (hrecon : ∀ r ∈ rows, reconId r.indicator = nodeId r)
    (hnd : (rows.map (fun r => (r.indicator, r.type))).Nodup) :
    ∀ r1 ∈ rows, ∀ r2 ∈ rows, r1 ≠ r2 →
      ((r1.asn = r2.asn ∧ r1.asn ≠ "") ∨ (r1.country = r2.country ∧ r1.country ≠ "")
        ∨ (r1.organization = r2.organization ∧ r1.organization ≠ "")) →
      (edgesBetween (build_graph rows) (nodeId r1) (nodeId r2)).length = 1
      ∧ pairRels (build_graph rows) (nodeId r1) (nodeId r2) =
          (if r1.asn = r2.asn ∧ r1.asn ≠ "" then [("same_asn", r1.asn)] else [])
          ++ (if r1.country = r2.country ∧ r1.country ≠ ""
              then [("same_country", r1.country)] else [])
          ++ (if r1.organization = r2.organization ∧ r1.organization ≠ ""
              then [("same_org", r1.organization)] else []) := by
  have hindinj : ∀ r ∈ rows, ∀ r' ∈ rows, r.indicator = r'.indicator → r = r' := by
    intro r hr r' hr' hind
    have h1 := hrecon r hr
    have h2 := hrecon r' hr'
    rw [hind] at h1
    have hnode : nodeId r = nodeId r' := by rw [← h1, ← h2]
    have hnode' : (r.type ++ "_") ++ r.indicator = (r'.type ++ "_") ++ r.indicator := by
      have : (r.type ++ "_") ++ r.indicator = (r'.type ++ "_") ++ r'.indicator := hnode
      rw [← hind] at this
      exact this
    have htype : r.type = r'.type :=
      str_append_right_cancel (str_append_right_cancel hnode')
    exact List.inj_on_of_nodup_map hnd hr hr' (by rw [hind, htype])
  intro r1 hr1 r2 hr2 hne12 hshare
  have hrec1 := hrecon r1 hr1
  have hrec2 := hrecon r2 hr2
  have hndind : (rows.map (·.indicator)).Nodup :=
    (List.Nodup.of_map _ hnd).map_on (fun x hx y hy hxy => hindinj x hx y hy hxy)
  have hedges1 : (rows.foldl (fun g r => addNode g (nodeId r)) (⟨[], []⟩ : Graph)).edges
      = [] := buildNodes_edges rows _
  have hle1 : (edgesBetween (rows.foldl (fun g r => addNode g (nodeId r)) ⟨[], []⟩)
      (nodeId r1) (nodeId r2)).length ≤ 1 := by
    unfold edgesBetween
    rw [hedges1]
    simp
  have hrels1 : pairRels (rows.foldl (fun g r => addNode g (nodeId r)) ⟨[], []⟩)
      (nodeId r1) (nodeId r2) = [] := by
    unfold pairRels edgesBetween
    rw [hedges1]
    rfl
  have hu1 : nodeId r1 ∈ (rows.foldl (fun g r => addNode g (nodeId r))
      (⟨[], []⟩ : Graph)).nodes := buildNodes_mem rows _ r1 hr1
  have hv1 : nodeId r2 ∈ (rows.foldl (fun g r => addNode g (nodeId r))
      (⟨[], []⟩ : Graph)).nodes := buildNodes_mem rows _ r2 hr2
  have hpass1 := link_by_pair (·.asn) "same_asn" rows _ r1 r2 hr1 hr2 hne12
    hindinj hndind hrec1 hrec2 hle1 hu1 hv1
  have hpass2 := link_by_pair (·.country) "same_country" rows
    (_link_by (·.asn) "same_asn" rows (rows.foldl (fun g r => addNode g (nodeId r)) ⟨[], []⟩))
    r1 r2 hr1 hr2 hne12 hindinj hndind hrec1 hrec2 hpass1.2.1
    (by rw [hpass1.1]; exact hu1) (by rw [hpass1.1]; exact hv1)
  have hpass3 := link_by_pair (·.organization) "same_org" rows
    (_link_by (·.country) "same_country" rows
      (_link_by (·.asn) "same_asn" rows
        (rows.foldl (fun g r => addNode g (nodeId r)) ⟨[], []⟩)))
    r1 r2 hr1 hr2 hne12 hindinj hndind hrec1 hrec2 hpass2.2.1
    (by rw [hpass2.1, hpass1.1]; exact hu1) (by rw [hpass2.1, hpass1.1]; exact hv1)
  have hbg : build_graph rows = _link_by (·.organization) "same_org" rows
      (_link_by (·.country) "same_country" rows
        (_link_by (·.asn) "same_asn" rows
          (rows.foldl (fun g r => addNode g (nodeId r)) ⟨[], []⟩))) := rfl
  have hrels : pairRels (build_graph rows) (nodeId r1) (nodeId r2) =
      (if r1.asn = r2.asn ∧ r1.asn ≠ "" then [("same_asn", r1.asn)] else [])
      ++ (if r1.country = r2.country ∧ r1.country ≠ ""
          then [("same_country", r1.country)] else [])
      ++ (if r1.organization = r2.organization ∧ r1.organization ≠ ""
          then [("same_org", r1.organization)] else []) := by
    rw [hbg, hpass3.2.2, hpass2.2.2, hpass1.2.2, hrels1, List.nil_append]
  refine ⟨?_, hrels⟩
  have hlenle : (edgesBetween (build_graph rows) (nodeId r1) (nodeId r2)).length ≤ 1 := by
    rw [hbg]
    exact hpass3.2.1
  have hrelsne : pairRels (build_graph rows) (nodeId r1) (nodeId r2) ≠ [] := by
    rw [hrels]
    rcases hshare with h | h | h
    · rw [if_pos h]
      simp
    · rw [if_pos h]
      simp
    · rw [if_pos h]
      simp
  have hne' : edgesBetween (build_graph rows) (nodeId r1) (nodeId r2) ≠ [] := by
    intro h0
    apply hrelsne
    unfold pairRels
    rw [h0]
    rfl
  rcases length_le_one_cases _ hlenle with h | ⟨e, he⟩
  · exact absurd h hne'
  · rw [he]
    rfl

/-- Witness for C1: two IP rows sharing both ASN "AS7" and country "NL" get
exactly one edge carrying the two tags in pass order. -/
theorem C1_amended_witness :
    c1wA ∈ [c1wA, c1wB] ∧ c1wA ≠ c1wB
    ∧ (c1wA.asn = c1wB.asn ∧ c1wA.asn ≠ "")
    ∧ ((edgesBetween (build_graph [c1wA, c1wB]) (nodeId c1wA) (nodeId c1wB)).length = 1
      ∧ pairRels (build_graph [c1wA, c1wB]) (nodeId c1wA) (nodeId c1wB) =
          (if c1wA.asn = c1wB.asn ∧ c1wA.asn ≠ "" then [("same_asn", c1wA.asn)] else [])
          ++ (if c1wA.country = c1wB.country ∧ c1wA.country ≠ ""
              then [("same_country", c1wA.country)] else [])
          ++ (if c1wA.organization = c1wB.organization ∧ c1wA.organization ≠ ""
              then [("same_org", c1wA.organization)] else []))
    ∧ pairRels (build_graph [c1wA, c1wB]) (nodeId c1wA) (nodeId c1wB)
        = [("same_asn", "AS7"), ("same_country", "NL")] :=
  ⟨by decide, by decide, by decide,
    C1_amended [c1wA, c1wB] (by decide) (by decide) c1wA (by decide) c1wB (by decide)
      (by decide) (Or.inl (by decide)), by decide⟩

end OSINT
